import Mathlib

/-
  Verification development for the osv-audit core: the version
  comparator and fix-suggestion engine (src/tools/suggest.ts) and the
  manifest-parsing layer (src/tools/parse.ts).

  Modelling conventions:
  * JS strings are Lean `String`; character classes follow the ASCII
    behaviour of the JS regexes involved (all of which are ASCII).
  * `String.prototype.localeCompare` is modelled as code-unit
    lexicographic comparison returning -1/0/1 (the deterministic
    approximation of the default-locale comparison for the version
    strings this code handles).
  * `Array.prototype.sort` (stable since ES2019) is modelled by a
    stable insertion sort over the same comparator.
  * `JSON.parse`, `js-yaml` and `smol-toml` are external structured
    data decoders; they are passed to `parseDependencies` as explicit
    decoder parameters producing the TS interface shapes.
  * JS falsiness of strings is modelled explicitly: a `string`
    optional field is `Option String`, and truthiness of a present
    string additionally requires it to be nonempty.
-/

-- ============================================================================
-- Generic string / list utilities (models of the JS built-ins used)
-- ============================================================================

/-- Single-quote character, used by the yarn-lock quote stripping. -/
def squote : Char := Char.ofNat 39

/-- Whitespace class of the JS regex escape backslash-s and of
`String.prototype.trim`, restricted to its ASCII members (the inputs
these parsers handle). -/
def jsWs (c : Char) : Bool :=
  c = ' ' ∨ c = '\t' ∨ c = '\n' ∨ c = '\r' ∨ c = Char.ofNat 11 ∨ c = Char.ofNat 12

/-- ASCII model of `s.toUpperCase()`. -/
def strToUpper (s : String) : String := String.mk (s.data.map Char.toUpper)

/-- Lexicographic (code-unit) strict comparison of character lists. -/
def charListLt : List Char → List Char → Bool
  | [], [] => false
  | [], _ :: _ => true
  | _ :: _, [] => false
  | x :: xs, y :: ys => if x < y then true else if y < x then false else charListLt xs ys

/-- Model of `a.localeCompare(b)`: code-unit lexicographic comparison
returning -1, 0 or 1. -/
def localeCompare (a b : String) : Int :=
  if charListLt a.data b.data then -1 else if charListLt b.data a.data then 1 else 0

/-- Model of `text.split(sep)` for a single-character separator. -/
def splitOnChar (sep : Char) : List Char → List (List Char)
  | [] => [[]]
  | c :: cs =>
    let r := splitOnChar sep cs
    if c = sep then [] :: r
    else
      match r with
      | h :: t => (c :: h) :: t
      | [] => [[c]]

/-- Model of `s.trim()` (leading part). -/
def trimLeftList (cs : List Char) : List Char := cs.dropWhile jsWs

/-- Model of `s.trim()` on a character list. -/
def trimList (cs : List Char) : List Char :=
  ((cs.dropWhile jsWs).reverse.dropWhile jsWs).reverse

/-- Model of `s.trim()` on a string. -/
def trimString (s : String) : String := String.mk (trimList s.data)

/-- Fuel-driven model of the global, left-to-right, non-overlapping
string replacement `s.replace(pat, rep)` for a literal nonempty
pattern; the fuel is the length of the scanned list, which bounds the
number of steps since every step consumes at least one character. -/
def replaceAllAux (pat rep : List Char) : List Char → Nat → List Char
  | cs, 0 => cs
  | [], _ => []
  | c :: cs, fuel + 1 =>
    if pat.isPrefixOf (c :: cs) ∧ pat ≠ [] then
      rep ++ replaceAllAux pat rep (List.drop (pat.length - 1) cs) fuel
    else
      c :: replaceAllAux pat rep cs fuel

/-- Model of `s.replace(new RegExp(pat, "g"), rep)` for a literal
nonempty pattern `pat`. -/
def replaceAll (s pat rep : String) : String :=
  String.mk (replaceAllAux pat.data rep.data s.data s.data.length)

/-- Model of `[...new Set(l)]`: deduplication keeping the first
occurrence of each element, in first-occurrence order. -/
def dedupFirstAux : List String → List String → List String
  | _, [] => []
  | seen, x :: xs =>
    if x ∈ seen then dedupFirstAux seen xs else x :: dedupFirstAux (x :: seen) xs

/-- Model of `[...new Set(l)]` for string lists. -/
def dedupFirst (l : List String) : List String := dedupFirstAux [] l

/-- Insertion step of the stable sort: the new element goes before the
first strictly greater element, hence after every element it ties
with (JS sort keeps the original order of elements that compare
equal). -/
def insertStable (lt : α → α → Bool) (x : α) : List α → List α
  | [] => [x]
  | y :: ys => if lt x y then x :: y :: ys else y :: insertStable lt x ys

/-- Accumulator loop of the stable sort; elements are inserted in input
order. -/
def sortStableAux (lt : α → α → Bool) : List α → List α → List α
  | [], acc => acc
  | x :: xs, acc => sortStableAux lt xs (insertStable lt x acc)

/-- Model of the stable `Array.prototype.sort` with comparator `cmp`,
where `lt a b` stands for `cmp(a, b) < 0`. -/
def sortStable (lt : α → α → Bool) (l : List α) : List α := sortStableAux lt l []

-- ============================================================================
-- Version comparison (src/tools/suggest.ts, parseVersion / compareVersions)
-- ============================================================================

/-- interface ParsedVersion of suggest.ts. -/
structure ParsedVersion where
  major : Nat
  minor : Nat
  patch : Nat
  prerelease : Option String
  original : String
deriving DecidableEq

/-- Model of `parseInt(digits, 10)` on an all-digit string (absent
groups default to the digits of "0", i.e. the empty accumulator). -/
def digitsToNat (cs : List Char) : Nat :=
  cs.foldl (fun n c => 10 * n + (c.toNat - '0'.toNat)) 0

/-- Matcher for the tail regex fragment `(?:[-.](.+))?$`: the group is
tried present-first; `(.+)` must be nonempty and, being greedy and
followed by the anchor, consumes the whole remainder. -/
def tryPre : List Char → Option (Option (List Char))
  | [] => some none
  | c :: rest => if (c = '-' ∨ c = '.') ∧ rest ≠ [] then some (some rest) else none

/-- Matcher for `(?:\.(\d+))?(?:[-.](.+))?$` (the patch group and the
prerelease tail). The optional group is tried present-first and the
digit run is maximal: shrinking it would leave a digit in front of the
continuation, which only accepts a dot, a dash or the end. -/
def tryPatch (cs : List Char) : Option (Option (List Char) × Option (List Char)) :=
  let absent := (tryPre cs).map (fun pre => (none, pre))
  match cs with
  | c :: r =>
    if c = '.' then
      let d := r.takeWhile Char.isDigit
      if d = [] then absent
      else
        match tryPre (r.dropWhile Char.isDigit) with
        | some pre => some (some d, pre)
        | none => absent
    else absent
  | [] => absent

/-- Matcher for `(?:\.(\d+))?(?:\.(\d+))?(?:[-.](.+))?$` (the minor
group and the rest), with the same present-first and maximal-run
discipline as `tryPatch`. -/
def tryMinor (cs : List Char) :
    Option (Option (List Char) × Option (List Char) × Option (List Char)) :=
  let absent := (tryPatch cs).map (fun p => (none, p.1, p.2))
  match cs with
  | c :: r =>
    if c = '.' then
      let d := r.takeWhile Char.isDigit
      if d = [] then absent
      else
        match tryPatch (r.dropWhile Char.isDigit) with
        | some p => some (some d, p.1, p.2)
        | none => absent
    else absent
  | [] => absent

/-- parseVersion of suggest.ts: strip one leading "v", then match
`(d+)(?:\.(d+))?(?:\.(d+))?(?:[-.](.+))?` anchored at both ends (with
d+ standing for a digit run). The leading digit run is maximal, since
every continuation of the regex rejects a digit as its first
character. Absent numeric groups default to 0; the prerelease group,
being `(.+)`, is never the empty string, so the JS `match[4] || null`
is exactly the optional group. -/
def parseVersion (version : String) : Option ParsedVersion :=
  let cleaned : List Char :=
    match version.data with
    | c :: r => if c = 'v' then r else c :: r
    | [] => []
  let major := cleaned.takeWhile Char.isDigit
  if major = [] then none
  else
    match tryMinor (cleaned.dropWhile Char.isDigit) with
    | none => none
    | some (mi, pa, pre) =>
      some { major := digitsToNat major
             minor := digitsToNat (mi.getD [])
             patch := digitsToNat (pa.getD [])
             prerelease := pre.map String.mk
             original := version }

/-- compareVersions of suggest.ts. Numeric fields are compared by
subtraction (as JS numbers); prerelease presence sorts lower; two
prerelease tags fall back to localeCompare; if either side fails to
parse, the two original strings are compared with localeCompare. -/
def compareVersions (a b : String) : Int :=
  match parseVersion a, parseVersion b with
  | some pa, some pb =>
    if pa.major ≠ pb.major then (pa.major : Int) - pb.major
    else if pa.minor ≠ pb.minor then (pa.minor : Int) - pb.minor
    else if pa.patch ≠ pb.patch then (pa.patch : Int) - pb.patch
    else
      match pa.prerelease, pb.prerelease with
      | some _, none => -1
      | none, some _ => 1
      | some x, some y => localeCompare x y
      | none, none => 0
  | _, _ => localeCompare a b

/-- isVersionGreaterOrEqual of suggest.ts. -/
def isVersionGreaterOrEqual (version target : String) : Bool :=
  compareVersions version target ≥ 0

-- ============================================================================
-- Fix suggestion engine (src/tools/suggest.ts)
-- ============================================================================

/-- Priority tier of a FixSuggestion. -/
inductive Priority where
  | critical
  | high
  | medium
  | low
deriving DecidableEq

/-- Action field of a FixSuggestion (named FixAction here because Lean
already uses the name Action). -/
inductive FixAction where
  | upgrade
  | review
  | investigate
deriving DecidableEq

/-- Dependency record (types.ts); `version` is an optional string
field. -/
structure Dependency where
  ecosystem : String
  name : String
  version : Option String
deriving DecidableEq

/-- Vulnerability record as consumed by suggestFixes (the element type
of `vuln_results[i].vulnerabilities` in types.ts). The numeric
`severity_score` field is a JS float that suggestFixes never reads and
is omitted from the model. -/
structure VulnRecord where
  id : String
  summary : String
  severity : Option String
  fixed_versions : List String
  aliases : List String
  references : List (String × String)
deriving DecidableEq

/-- One entry of the `vuln_results` input array. -/
structure VulnResult where
  dependency : Dependency
  vulnerabilities : List VulnRecord
deriving DecidableEq

/-- FixSuggestion output record (types.ts). -/
structure FixSuggestion where
  package : String
  ecosystem : String
  current_version : String
  suggested_version : Option String
  vulnerabilities_fixed : List String
  severity : String
  priority : Priority
  action : FixAction
  notes : List String
deriving DecidableEq

/-- getPriorityFromSeverity of suggest.ts: switch on
`severity?.toUpperCase()` with default low (a null severity also falls
through to low). -/
def getPriorityFromSeverity (severity : Option String) : Priority :=
  match severity with
  | none => Priority.low
  | some s =>
    if strToUpper s = "CRITICAL" then Priority.critical
    else if strToUpper s = "HIGH" then Priority.high
    else if strToUpper s = "MEDIUM" then Priority.medium
    else Priority.low

/-- Severity rank order scanned by getHighestSeverity. -/
def severityOrder : List String := ["CRITICAL", "HIGH", "MEDIUM", "LOW", "NONE"]

/-- Membership test `severities.some(s => s?.toUpperCase() === level)`
(a null entry never equals a level). -/
def severityMatches (severities : List (Option String)) (level : String) : Bool :=
  severities.any (fun s =>
    match s with
    | some v => strToUpper v = level
    | none => false)

/-- getHighestSeverity of suggest.ts: first level of the fixed rank
order matched by some entry, else "UNKNOWN". -/
def getHighestSeverity (severities : List (Option String)) : String :=
  match severityOrder.find? (fun level => severityMatches severities level) with
  | some level => level
  | none => "UNKNOWN"

/-- Comparator-based strict order used to sort fixed versions:
`compareVersions(a, b) < 0`. -/
def versionLtB (a b : String) : Bool := compareVersions a b < 0

/-- Scan loop of findMinimumSafeVersion: walk the sorted fixed
versions; an unparsable current version returns the first element
unconditionally, otherwise the first element comparing strictly
greater than the current version is returned. -/
def findLoop (currentParsed : Option ParsedVersion) (currentVersion : String) :
    List String → Option String
  | [] => none
  | fixed :: rest =>
    if currentParsed.isNone then some fixed
    else if compareVersions fixed currentVersion > 0 then some fixed
    else findLoop currentParsed currentVersion rest

/-- findMinimumSafeVersion of suggest.ts: sort the fixed versions with
compareVersions, scan for the first one strictly greater than the
current version (short-circuiting to the head when the current version
is unparsable), and fall back to the last sorted element when the scan
finds nothing. -/
def findMinimumSafeVersion (currentVersion : String) (fixedVersions : List String) :
    Option String :=
  if fixedVersions.length = 0 then none
  else
    match findLoop (parseVersion currentVersion) currentVersion
        (sortStable versionLtB fixedVersions) with
    | some v => some v
    | none => (sortStable versionLtB fixedVersions).getLast?

/-- Current-version fallback `dependency.version || "unknown"` (an
absent or empty version string is falsy). -/
def currentVersionOf (dep : Dependency) : String :=
  match dep.version with
  | some v => if v = "" then "unknown" else v
  | none => "unknown"

/-- Deduplicated union of the fixed versions of the vulnerabilities of
one entry, in push order. -/
def uniqueFixedOf (vulnerabilities : List VulnRecord) : List String :=
  dedupFirst (vulnerabilities.flatMap (fun v => v.fixed_versions))

/-- Loop body of suggestFixes for one entry with a nonempty
vulnerability list: collect ids, severities and fixed versions,
deduplicate the fixed versions, derive severity and priority, pick the
suggested version, then derive action and notes. The `action` variable
is initialised to investigate in the source and then always
overwritten by the if/else on the truthiness of the suggested version:
`if (suggestedVersion)` takes the upgrade branch only for a present
nonempty string, so an empty-string suggested version (falsy in JS)
takes the review branch while staying in the suggested_version
field. -/
def buildSuggestion (result : VulnResult) : FixSuggestion :=
  let vulnIds := result.vulnerabilities.map (fun v => v.id)
  let severities := result.vulnerabilities.map (fun v => v.severity)
  let uniqueFixedVersions := uniqueFixedOf result.vulnerabilities
  let highestSeverity := getHighestSeverity severities
  let priority := getPriorityFromSeverity (some highestSeverity)
  let currentVersion := currentVersionOf result.dependency
  let suggestedVersion := findMinimumSafeVersion currentVersion uniqueFixedVersions
  let actionNotes : FixAction × List String :=
    match suggestedVersion with
    | some sv =>
      if sv ≠ "" then
        (FixAction.upgrade,
          ["Upgrade from " ++ currentVersion ++ " to " ++ sv] ++
            (match parseVersion currentVersion, parseVersion sv with
             | some cp, some sp =>
               if sp.major > cp.major then
                 ["Warning: This is a major version upgrade - review changelog for breaking changes"]
               else []
             | _, _ => []))
      else
        (FixAction.review,
          ["No fixed version available - consider alternative packages or manual mitigation"])
    | none =>
      (FixAction.review,
        ["No fixed version available - consider alternative packages or manual mitigation"])
  let action := actionNotes.1
  let upgradeNotes := actionNotes.2
  let cves := dedupFirst
    ((result.vulnerabilities.flatMap (fun v => v.aliases)).filter
      (fun a => "CVE-".data.isPrefixOf a.data))
  let notes :=
    if cves ≠ [] then upgradeNotes ++ ["Related CVEs: " ++ String.intercalate ", " cves]
    else upgradeNotes
  { package := result.dependency.name
    ecosystem := result.dependency.ecosystem
    current_version := currentVersion
    suggested_version := suggestedVersion
    vulnerabilities_fixed := vulnIds
    severity := highestSeverity
    priority := priority
    action := action
    notes := notes }

/-- The by_priority record: the four fixed keys of the summary map. -/
structure ByPriority where
  critical : Nat
  high : Nat
  medium : Nat
  low : Nat
deriving DecidableEq

/-- Increment `byPriority[priority]`. -/
def bumpPriority (bp : ByPriority) : Priority → ByPriority
  | Priority.critical => { bp with critical := bp.critical + 1 }
  | Priority.high => { bp with high := bp.high + 1 }
  | Priority.medium => { bp with medium := bp.medium + 1 }
  | Priority.low => { bp with low := bp.low + 1 }

/-- Numeric rank of the final priority sort
(`const priorityOrder = ...critical 0, high 1, medium 2, low 3`). -/
def priorityOrder : Priority → Nat
  | Priority.critical => 0
  | Priority.high => 1
  | Priority.medium => 2
  | Priority.low => 3

/-- Summary part of the suggestFixes result. -/
structure SuggestSummary where
  total : Nat
  by_priority : ByPriority
deriving DecidableEq

/-- Data part of the suggestFixes success response. -/
structure SuggestOutput where
  suggestions : List FixSuggestion
  summary : SuggestSummary
  warnings : List String
deriving DecidableEq

/-- suggestFixes of suggest.ts on a well-typed `vuln_results` list
(the initial `Array.isArray` guard cannot fire on a typed list).
Entries with an empty vulnerability list are skipped; each remaining
entry yields one suggestion and one priority-counter increment; the
suggestion list is then stably sorted by priority rank. -/
def suggestFixes (vuln_results : List VulnResult) : SuggestOutput :=
  let emitted :=
    (vuln_results.filter (fun r => !r.vulnerabilities.isEmpty)).map buildSuggestion
  let byPriority :=
    emitted.foldl (fun bp s => bumpPriority bp s.priority) ⟨0, 0, 0, 0⟩
  let sorted :=
    sortStable (fun a b => decide (priorityOrder a.priority < priorityOrder b.priority)) emitted
  { suggestions := sorted
    summary := { total := sorted.length, by_priority := byPriority }
    warnings :=
      if sorted.length = 0 then ["No vulnerabilities found - no fix suggestions needed"]
      else [] }

-- ============================================================================
-- Manifest parsers (src/tools/parse.ts)
-- ============================================================================

/-- Normalized dependency produced by the manifest parsers. -/
structure ParsedDependency where
  ecosystem : String
  name : String
  version : String
deriving DecidableEq

/-- ASCII model of `s.toLowerCase()`. -/
def strToLower (s : String) : String := String.mk (s.data.map Char.toLower)

/-- Package node of a decoded package-lock document: an optional
version field plus an optional nested `dependencies` map (the v1
format nests recursively; `Object.entries` order is the JSON insertion
order for these non-numeric keys). -/
inductive PLPkg where
  | mk (version : Option String) (dependencies : Option (List (String × PLPkg)))

/-- Version field of a package-lock node. -/
def PLPkg.version : PLPkg → Option String
  | .mk v _ => v

/-- Nested dependencies field of a package-lock node. -/
def PLPkg.dependencies : PLPkg → Option (List (String × PLPkg))
  | .mk _ d => d

/-- Decoded package-lock document: the v2/v3 `packages` map and the v1
`dependencies` map, both optional. -/
structure PackageLockData where
  packages : Option (List (String × PLPkg))
  dependencies : Option (List (String × PLPkg))

/-- Name derivation of the v2 walk:
`path.replace(new RegExp("^node_modules/"), "")` followed by the global
replacement of "/node_modules/" by "/". -/
def packagePathName (path : String) : String :=
  let stripped :=
    if "node_modules/".data.isPrefixOf path.data then String.mk (path.data.drop 13) else path
  replaceAll stripped "/node_modules/" "/"

/-- v2/v3 extraction of parsePackageLock: walk the `packages` map,
skip the empty root path, derive the name from the install path, and
emit one dependency per entry whose name and version are truthy. -/
def packagesExtract (packages : Option (List (String × PLPkg))) : List ParsedDependency :=
  match packages with
  | none => []
  | some entries =>
    entries.flatMap (fun e =>
      if e.1 = "" then []
      else
        let name := packagePathName e.1
        match e.2.version with
        | some v => if name ≠ "" ∧ v ≠ "" then [⟨"npm", name, v⟩] else []
        | none => [])

mutual

/-- Recursive v1 walk of parsePackageLock over a `dependencies` map:
nested names are qualified with a "/"-joined path. -/
def extractDepsList (pfx : String) : List (String × PLPkg) → List ParsedDependency
  | [] => []
  | e :: rest => extractDepsOne pfx e.1 e.2 ++ extractDepsList pfx rest

/-- Emission for one node of the v1 walk, followed by the walk of its
nested dependencies. -/
def extractDepsOne (pfx name : String) : PLPkg → List ParsedDependency
  | .mk ver deps =>
    let fullName := if pfx = "" then name else pfx ++ "/" ++ name
    (match ver with
     | some v => if v ≠ "" then [⟨"npm", fullName, v⟩] else []
     | none => []) ++
    (match deps with
     | some ds => extractDepsList fullName ds
     | none => [])

end

/-- parsePackageLock of parse.ts on a decoded document: the v2
extraction runs first; the v1 walk runs only when a `dependencies` map
is present and the v2 extraction produced zero results (its output is
pushed into the same array, which is then empty). -/
def parsePackageLock (data : PackageLockData) : List ParsedDependency :=
  let deps := packagesExtract data.packages
  match data.dependencies with
  | some depsMap => if deps.length = 0 then deps ++ extractDepsList "" depsMap else deps
  | none => deps

/-- Value of a pnpm dependency map entry: either a bare version string
or an object carrying a version field. -/
inductive PnpmDepVal where
  | str (s : String)
  | obj (version : String)
deriving DecidableEq

/-- Version extraction `typeof value === "string" ? value : value.version`. -/
def pnpmDepVersion : PnpmDepVal → String
  | .str s => s
  | .obj v => v

/-- Decoded pnpm-lock document: the `packages` map (only its keys are
read) and the top-level dependency maps. -/
structure PnpmLockData where
  packages : Option (List String)
  dependencies : Option (List (String × PnpmDepVal))
  devDependencies : Option (List (String × PnpmDepVal))

/-- Matcher for the pnpm package-path regex
`^\/?(@?[^@/]+(?:\/[^@/]+)?)[@/](.+)$`: a leading slash is consumed if
present; the name is an optional leading "@", a first segment, and an
optional present-first second segment; then a "@" or "/" separator and
a nonempty version. Segment runs are maximal since every continuation
rejects a segment character. -/
def pnpmSegEnd (c : Char) : Bool := c = '@' ∨ c = '/'

/-- Second half of the pnpm key matcher: given the matched name part
and the remainder after it, try the optional second segment
present-first, then require the separator and a nonempty tail. -/
def pnpmAfterName (p1 rest : List Char) : Option (List Char × List Char) :=
  let absent :=
    match rest with
    | sep :: tail => if pnpmSegEnd sep ∧ tail ≠ [] then some (p1, tail) else none
    | [] => none
  match rest with
  | '/' :: r2 =>
    let run2 := r2.takeWhile (fun c => ¬ pnpmSegEnd c)
    if run2 = [] then absent
    else
      match r2.dropWhile (fun c => ¬ pnpmSegEnd c) with
      | sep :: tail =>
        if pnpmSegEnd sep ∧ tail ≠ [] then some (p1 ++ '/' :: run2, tail) else absent
      | [] => absent
  | _ => absent

/-- Full pnpm key matcher; returns the name and version captures. -/
def pnpmKeyMatch (key : String) : Option (String × String) :=
  let cs0 := key.data
  let cs := match cs0 with | '/' :: r => r | _ => cs0
  match cs with
  | '@' :: r =>
    let run := r.takeWhile (fun c => ¬ pnpmSegEnd c)
    if run = [] then none
    else
      (pnpmAfterName ('@' :: run) (r.dropWhile (fun c => ¬ pnpmSegEnd c))).map
        (fun nv => (String.mk nv.1, String.mk nv.2))
  | _ =>
    let run := cs.takeWhile (fun c => ¬ pnpmSegEnd c)
    if run = [] then none
    else
      (pnpmAfterName run (cs.dropWhile (fun c => ¬ pnpmSegEnd c))).map
        (fun nv => (String.mk nv.1, String.mk nv.2))

/-- Extraction from a pnpm top-level dependency map; an empty version
string is falsy and skipped. -/
def pnpmFromDeps (m : Option (List (String × PnpmDepVal))) : List ParsedDependency :=
  match m with
  | none => []
  | some entries =>
    entries.filterMap (fun e =>
      let version := pnpmDepVersion e.2
      if version ≠ "" then some ⟨"npm", e.1, version⟩ else none)

/-- parsePnpmLock of parse.ts on a decoded document. -/
def parsePnpmLock (data : PnpmLockData) : List ParsedDependency :=
  let deps :=
    match data.packages with
    | none => []
    | some keys => keys.filterMap (fun k => (pnpmKeyMatch k).map (fun nv => (⟨"npm", nv.1, nv.2⟩ : ParsedDependency)))
  if deps.length = 0 then deps ++ pnpmFromDeps data.dependencies ++ pnpmFromDeps data.devDependencies
  else deps

-- ----------------------------------------------------------------------------
-- yarn-lock parser
-- ----------------------------------------------------------------------------

/-- Accumulator of the yarn-lock line state machine. -/
structure YarnState where
  deps : List ParsedDependency
  seen : List String
  currentPackages : List String
  currentVersion : Option String

/-- Emission loop of a completed yarn block: one dependency per pending
name, deduplicated by the name-at-version composite key through the
`seen` set. -/
def yarnFlushAux (ver : String) : List String → List ParsedDependency → List String →
    List ParsedDependency × List String
  | [], deps, seen => (deps, seen)
  | pkg :: rest, deps, seen =>
    let key := pkg ++ "@" ++ ver
    if key ∈ seen then yarnFlushAux ver rest deps seen
    else yarnFlushAux ver rest (deps ++ [⟨"npm", pkg, ver⟩]) (key :: seen)

/-- Flush of the pending yarn block: emits only when there are pending
names and a truthy resolved version. -/
def yarnFlush (st : YarnState) : YarnState :=
  let hasVersion : Bool := match st.currentVersion with | some v => v ≠ "" | none => false
  if !st.currentPackages.isEmpty && hasVersion then
    match st.currentVersion with
    | some ver =>
      let r := yarnFlushAux ver st.currentPackages st.deps st.seen
      { st with deps := r.1, seen := r.2 }
    | none => st
  else st

/-- Model of `line.replace(new RegExp(":$"), "")`. -/
def stripTrailingColon (cs : List Char) : List Char :=
  match cs.reverse with
  | ':' :: r => r.reverse
  | _ => cs

/-- Model of `cleanLine.split(new RegExp(",\\s*"))`: split on commas,
then drop the whitespace that the separator regex would have
consumed from every later piece. -/
def splitCommaWs (cs : List Char) : List (List Char) :=
  match splitOnChar ',' cs with
  | [] => []
  | h :: t => h :: t.map trimLeftList

/-- Model of `part.replace(^quote-or-quote$ global, "")`: one leading
and one trailing quote character are removed. -/
def removeQuoteEnds (cs : List Char) : List Char :=
  let s1 :=
    match cs with
    | c :: r => if c = '"' ∨ c = squote then r else c :: r
    | [] => []
  match s1.reverse with
  | c :: r => if c = '"' ∨ c = squote then r.reverse else s1
  | [] => s1

/-- Matcher for the declaration-name regex `^(@?[^@]+)@`: an optional
leading "@" (which, when present, must be consumed, since the
alternative leaves the non-"@" run empty), then a maximal nonempty
non-"@" run that must be followed by an "@". -/
def yarnNameMatch (clean : List Char) : Option String :=
  match clean with
  | '@' :: rest =>
    let run := rest.takeWhile (fun c => c ≠ '@')
    if run ≠ [] ∧ rest.dropWhile (fun c => c ≠ '@') ≠ [] then some (String.mk ('@' :: run))
    else none
  | _ =>
    let run := clean.takeWhile (fun c => c ≠ '@')
    if run ≠ [] ∧ clean.dropWhile (fun c => c ≠ '@') ≠ [] then some (String.mk run)
    else none

/-- Matcher for the version-line regex
`^\s+version\s+["... ]?([^"..\s]+)["...]?` (quote characters elided):
leading whitespace, the literal "version", more whitespace, an
optional quote, and a nonempty capture of non-quote non-whitespace
characters; the rest of the line is unconstrained. -/
def yarnVersionMatch (line : List Char) : Option String :=
  let ws1 := line.takeWhile jsWs
  if ws1 = [] then none
  else
    let r1 := line.dropWhile jsWs
    if "version".data.isPrefixOf r1 then
      let r2 := r1.drop 7
      let ws2 := r2.takeWhile jsWs
      if ws2 = [] then none
      else
        let r3 := r2.dropWhile jsWs
        let r4 :=
          match r3 with
          | c :: t => if c = '"' ∨ c = squote then t else c :: t
          | [] => []
        let cap := r4.takeWhile (fun c => ¬ jsWs c ∧ c ≠ '"' ∧ c ≠ squote)
        if cap = [] then none else some (String.mk cap)
    else none

/-- One line of the yarn-lock state machine: comments and blank lines
are skipped; an unindented line flushes the pending block and starts a
new one from its comma-separated declarations; an indented line
matching the version pattern records the resolved version; any other
line is ignored. -/
def yarnStep (st : YarnState) (line : List Char) : YarnState :=
  let isComment : Bool := match line with | c :: _ => decide (c = '#') | [] => false
  if isComment || (trimList line).isEmpty then st
  else
    let indented : Bool :=
      match line with | c :: _ => decide (c = ' ' ∨ c = '\t') | [] => false
    if !indented then
      let st1 := yarnFlush st
      let cleanLine := trimList (stripTrailingColon line)
      let parts := splitCommaWs cleanLine
      let pkgs := parts.filterMap (fun part => yarnNameMatch (trimList (removeQuoteEnds part)))
      { st1 with currentPackages := pkgs, currentVersion := none }
    else
      match yarnVersionMatch line with
      | some v => { st with currentVersion := some v }
      | none => st

/-- parseYarnLock of parse.ts: fold the state machine over the lines
and flush the final pending block at end of input. -/
def parseYarnLock (text : String) : List ParsedDependency :=
  let lines := splitOnChar '\n' text.data
  (yarnFlush (lines.foldl yarnStep ⟨[], [], [], none⟩)).deps

/-- Composite key by which parseYarnLock deduplicates its output. -/
def yarnKey (d : ParsedDependency) : String := d.name ++ "@" ++ d.version

-- ----------------------------------------------------------------------------
-- requirements.txt parser
-- ----------------------------------------------------------------------------

/-- Name class `[a-zA-Z0-9_-]` of the requirements regex. -/
def reqNameChar (c : Char) : Bool := c.isAlpha ∨ c.isDigit ∨ c = '_' ∨ c = '-'

/-- Fuel-driven model of removing every non-greedy bracket group
(`trimmed.replace(bracket-anything-bracket global, "")`): each "[" is
removed together with everything up to the first following "]";
an unclosed "[" is kept verbatim. -/
def removeExtrasAux : List Char → Nat → List Char
  | cs, 0 => cs
  | [], _ => []
  | c :: r, fuel + 1 =>
    if c = '[' then
      match r.dropWhile (fun x => x ≠ ']') with
      | _ :: tail => removeExtrasAux tail fuel
      | [] => c :: removeExtrasAux r fuel
    else c :: removeExtrasAux r fuel

/-- Matcher for the version operator alternation `(==|>=|<=|~=|!=|>|<)`;
returns the remainder after the operator. -/
def reqOpSplit : List Char → Option (List Char)
  | '=' :: '=' :: r => some r
  | '>' :: '=' :: r => some r
  | '<' :: '=' :: r => some r
  | '~' :: '=' :: r => some r
  | '!' :: '=' :: r => some r
  | '>' :: r => some r
  | '<' :: r => some r
  | _ => none

/-- One line of parseRequirements: skip blank, comment and option
lines; strip extras; match name-operator-version, else fall back to a
bare name with the wildcard version. -/
def parseRequirementsLine (line : List Char) : Option ParsedDependency :=
  let trimmed := trimList line
  match trimmed with
  | [] => none
  | '#' :: _ => none
  | '-' :: _ => none
  | _ =>
    let woExtras := removeExtrasAux trimmed trimmed.length
    let name := woExtras.takeWhile reqNameChar
    if name.isEmpty then none
    else
      let afterName := woExtras.dropWhile reqNameChar
      let afterWs := afterName.dropWhile jsWs
      let fullMatch :=
        match reqOpSplit afterWs with
        | some afterOp =>
          let v := (afterOp.dropWhile jsWs).takeWhile
            (fun c => ¬ jsWs c ∧ c ≠ ';' ∧ c ≠ '#')
          if v.isEmpty then none else some (String.mk v)
        | none => none
      match fullMatch with
      | some v => some ⟨"PyPI", String.mk (name.map Char.toLower), v⟩
      | none => some ⟨"PyPI", String.mk (name.map Char.toLower), "*"⟩

/-- parseRequirements of parse.ts. -/
def parseRequirements (text : String) : List ParsedDependency :=
  (splitOnChar '\n' text.data).filterMap parseRequirementsLine

-- ----------------------------------------------------------------------------
-- go.mod parser
-- ----------------------------------------------------------------------------

/-- Model of `.replace(new RegExp("\\s*//.*$"), "")` applied to a token
without whitespace: cut at the first "//" occurrence. -/
def dropSlashComment : List Char → List Char
  | [] => []
  | '/' :: '/' :: _ => []
  | c :: r => c :: dropSlashComment r

/-- Model of `.replace(new RegExp("^v"), "")` on a character list. -/
def stripLeadingV : List Char → List Char
  | 'v' :: r => r
  | cs => cs

/-- Matcher for `v?([^\s]+)` at the front of `cs` (with backtracking:
a lone "v" is captured as-is because the mandatory run after the
optional "v" would otherwise be empty). -/
def goModVersionCapture (cs : List Char) : Option (List Char) :=
  let tok := cs.takeWhile (fun c => ¬ jsWs c)
  if tok.isEmpty then none
  else
    match tok with
    | 'v' :: rest => if rest.isEmpty then some tok else some rest
    | _ => some tok

/-- Matcher for `^required-name\s+v?([^\s]+)` shared by the two go.mod
require forms: a maximal nonempty non-whitespace run, mandatory
whitespace, then the version capture. -/
def goModNameVersion (cs : List Char) : Option (List Char × List Char) :=
  let name := cs.takeWhile (fun c => ¬ jsWs c)
  if name.isEmpty then none
  else
    let r2 := cs.dropWhile (fun c => ¬ jsWs c)
    if (r2.takeWhile jsWs).isEmpty then none
    else
      (goModVersionCapture (r2.dropWhile jsWs)).map (fun v => (name, v))

/-- One line of parseGoMod, threading the require-block flag. The
single-line form strips a leading "v" from its capture; the block form
first strips a trailing line comment from the capture and then a
leading "v". -/
def goModStep (st : Bool × List ParsedDependency) (line : List Char) :
    Bool × List ParsedDependency :=
  let trimmed := trimList line
  if trimmed.isEmpty || "//".data.isPrefixOf trimmed then st
  else if trimmed = "require (".data then (true, st.2)
  else if trimmed = ")".data then (false, st.2)
  else if "require ".data.isPrefixOf trimmed then
    match goModNameVersion (trimList (trimmed.drop 7)) with
    | some nv => (st.1, st.2 ++ [⟨"Go", String.mk nv.1, String.mk (stripLeadingV nv.2)⟩])
    | none => st
  else if st.1 then
    match goModNameVersion trimmed with
    | some nv =>
      (st.1, st.2 ++ [⟨"Go", String.mk nv.1,
        String.mk (stripLeadingV (dropSlashComment nv.2))⟩])
    | none => st
  else st

/-- parseGoMod of parse.ts. -/
def parseGoMod (text : String) : List ParsedDependency :=
  ((splitOnChar '\n' text.data).foldl goModStep (false, [])).2

-- ----------------------------------------------------------------------------
-- poetry.lock and Cargo.lock parsers
-- ----------------------------------------------------------------------------

/-- One package table of a decoded poetry or cargo lock document. -/
structure LockPkg where
  name : Option String
  version : Option String
deriving DecidableEq

/-- Decoded poetry or cargo lock document: an optional array of
package tables. -/
structure TomlLockData where
  package : Option (List LockPkg)
deriving DecidableEq

/-- parsePoetryLock of parse.ts on a decoded document: names are
lowercased; entries need truthy name and version. -/
def parsePoetryLock (data : TomlLockData) : List ParsedDependency :=
  match data.package with
  | none => []
  | some pkgs =>
    pkgs.filterMap (fun p =>
      match p.name, p.version with
      | some n, some v =>
        if n ≠ "" ∧ v ≠ "" then some ⟨"PyPI", strToLower n, v⟩ else none
      | _, _ => none)

/-- parseCargoLock of parse.ts on a decoded document: like poetry but
without lowercasing and with the crates.io ecosystem. -/
def parseCargoLock (data : TomlLockData) : List ParsedDependency :=
  match data.package with
  | none => []
  | some pkgs =>
    pkgs.filterMap (fun p =>
      match p.name, p.version with
      | some n, some v =>
        if n ≠ "" ∧ v ≠ "" then some ⟨"crates.io", n, v⟩ else none
      | _, _ => none)

-- ----------------------------------------------------------------------------
-- parseDependencies entry point
-- ----------------------------------------------------------------------------

/-- Error codes of the response envelope (types.ts). -/
inductive ErrCode where
  | INVALID_INPUT
  | UPSTREAM_ERROR
  | RATE_LIMITED
  | TIMEOUT
  | PARSE_ERROR
  | INTERNAL_ERROR
deriving DecidableEq

/-- Details object attached to the two error responses of
parseDependencies. -/
structure ErrDetails where
  manifest_type : Option String
  supported_types : Option (List String)
deriving DecidableEq

/-- Error part of the response envelope. -/
structure ErrorInfo where
  code : ErrCode
  message : String
  details : ErrDetails
deriving DecidableEq

/-- Response of parseDependencies: either the dependency list with its
count and warnings, or an error envelope (the impure `retrieved_at`
timestamp of the meta object is not modelled). -/
inductive PDResponse where
  | ok (dependencies : List ParsedDependency) (count : Nat) (warnings : List String)
  | err (error : ErrorInfo)
deriving DecidableEq

/-- External structured-data decoders (JSON.parse, js-yaml, smol-toml)
taken as parameters: each produces the TS interface shape consumed by
the corresponding extraction, or raises (Except.error). -/
structure Decoders where
  packageLock : String → Except String PackageLockData
  pnpmLock : String → Except String PnpmLockData
  poetryLock : String → Except String TomlLockData
  cargoLock : String → Except String TomlLockData

/-- Keys of the PARSERS record, in declaration order. -/
def supportedManifestTypes : List String :=
  ["package-lock", "pnpm-lock", "yarn-lock", "requirements",
   "poetry-lock", "go-mod", "cargo-lock"]

/-- PARSERS lookup: the dialect parsers built over the external
decoders; the purely line-oriented dialects cannot raise. -/
def parserFor (d : Decoders) (mt : String) :
    Option (String → Except String (List ParsedDependency)) :=
  if mt = "package-lock" then some (fun t => (d.packageLock t).map parsePackageLock)
  else if mt = "pnpm-lock" then some (fun t => (d.pnpmLock t).map parsePnpmLock)
  else if mt = "yarn-lock" then some (fun t => Except.ok (parseYarnLock t))
  else if mt = "requirements" then some (fun t => Except.ok (parseRequirements t))
  else if mt = "poetry-lock" then some (fun t => (d.poetryLock t).map parsePoetryLock)
  else if mt = "go-mod" then some (fun t => Except.ok (parseGoMod t))
  else if mt = "cargo-lock" then some (fun t => (d.cargoLock t).map parseCargoLock)
  else none

/-- Input of parseDependencies; the manifest type tag is a plain
string at this boundary, so unsupported tags are representable. -/
structure PDInput where
  text : String
  manifest_type : String

/-- parseDependencies of parse.ts: reject empty text and unsupported
manifest types with INVALID_INPUT before any parser runs; wrap a
decoder exception into a PARSE_ERROR carrying the manifest type; on
success report the dependencies, their count and an emptiness
warning. The function is total: every outcome is a returned value. -/
def parseDependencies (d : Decoders) (input : PDInput) : PDResponse :=
  if trimString input.text = "" then
    PDResponse.err
      { code := ErrCode.INVALID_INPUT
        message := "Manifest text cannot be empty"
        details := { manifest_type := some input.manifest_type, supported_types := none } }
  else
    match parserFor d input.manifest_type with
    | none =>
      PDResponse.err
        { code := ErrCode.INVALID_INPUT
          message := "Unsupported manifest type: " ++ input.manifest_type
          details := { manifest_type := none, supported_types := some supportedManifestTypes } }
    | some p =>
      match p input.text with
      | Except.ok dependencies =>
        PDResponse.ok dependencies dependencies.length
          (if dependencies.length = 0 then ["No dependencies found in manifest"] else [])
      | Except.error msg =>
        PDResponse.err
          { code := ErrCode.PARSE_ERROR
            message := "Failed to parse " ++ input.manifest_type ++ ": " ++ msg
            details := { manifest_type := some input.manifest_type, supported_types := none } }

-- ============================================================================
-- Auxiliary definitions for the statements and witnesses
-- ============================================================================

/-- Sum of the four priority counters of the summary map. -/
def sumBP (bp : ByPriority) : Nat := bp.critical + bp.high + bp.medium + bp.low

/-- The decoder of the manifest type raised on the given text with the
given message (only the four structured dialects have decoders). -/
def decoderRaises (d : Decoders) (input : PDInput) (msg : String) : Prop :=
  (input.manifest_type = "package-lock" ∧ d.packageLock input.text = Except.error msg) ∨
  (input.manifest_type = "pnpm-lock" ∧ d.pnpmLock input.text = Except.error msg) ∨
  (input.manifest_type = "poetry-lock" ∧ d.poetryLock input.text = Except.error msg) ∨
  (input.manifest_type = "cargo-lock" ∧ d.cargoLock input.text = Except.error msg)

/-- Manifest text of the package-lock end-to-end example (the braces
of the JSON source are written with character escapes). -/
def exampleLockText : String :=
  "\x7b\"packages\":\x7b\"\":\x7b\"name\":\"test\",\"version\":\"1.0.0\"\x7d,\"node_modules/lodash\":\x7b\"version\":\"4.17.21\"\x7d\x7d\x7d"

/-- Tree produced by JSON.parse on exampleLockText, in the shape the
package-lock extraction consumes (the root entry carries only a
version; its name field is not part of the consumed shape). -/
def exampleLockData : PackageLockData :=
  { packages := some [("", PLPkg.mk (some "1.0.0") none),
                      ("node_modules/lodash", PLPkg.mk (some "4.17.21") none)]
    dependencies := none }

/-- Vulnerability record used by the concrete suggest examples. -/
def vulnW (sev : String) : VulnRecord :=
  { id := "GHSA-w"
    summary := "s"
    severity := some sev
    fixed_versions := ["2.0.0", "1.0.0"]
    aliases := ["CVE-2024-0001"]
    references := [] }

/-- Input entry used by the concrete suggest examples. -/
def entryW : VulnResult :=
  { dependency := { ecosystem := "npm", name := "left-pad", version := some "1.5.0" }
    vulnerabilities := [vulnW "HIGH"] }

/-- Input entry whose single vulnerability lists only the empty string
as a fixed version: findMinimumSafeVersion then returns the empty
string, which is non-null but falsy in JS. -/
def entryEmptyFix : VulnResult :=
  { dependency := { ecosystem := "npm", name := "left-pad", version := some "1.0.0" }
    vulnerabilities := [{ id := "GHSA-e"
                          summary := "s"
                          severity := some "HIGH"
                          fixed_versions := [""]
                          aliases := []
                          references := [] }] }

/-- Entry whose single vulnerability has the given severity and
package name, used by the priority-ordering example. -/
def entryOf (name sev : String) : VulnResult :=
  { dependency := { ecosystem := "npm", name := name, version := some "1.0.0" }
    vulnerabilities := [vulnW sev] }

/-- Input of the priority-ordering example: the emitted priorities in
input order are low, critical, medium. -/
def exC5 : List VulnResult := [entryOf "a" "LOW", entryOf "b" "CRITICAL", entryOf "c" "MEDIUM"]

/-- Decoder bundle of the package-lock example witness: it decodes
exactly the example text to the example tree. -/
def decodersW : Decoders :=
  { packageLock := fun t => if t = exampleLockText then Except.ok exampleLockData
                            else Except.error "Unexpected token"
    pnpmLock := fun _ => Except.error "bad yaml"
    poetryLock := fun _ => Except.error "bad toml"
    cargoLock := fun _ => Except.error "bad toml" }

/-- Decoder bundle that raises on every input, used by the
error-path witnesses. -/
def decodersErr : Decoders :=
  { packageLock := fun _ => Except.error "boom"
    pnpmLock := fun _ => Except.error "boom"
    poetryLock := fun _ => Except.error "boom"
    cargoLock := fun _ => Except.error "boom" }

-- ============================================================================
-- Lemmas: localeCompare and compareVersions algebra
-- ============================================================================

theorem charListLt_asymm : ∀ a b : List Char, charListLt a b = true → charListLt b a = false
  | [], [] => by simp [charListLt]
  | [], _ :: _ => by simp [charListLt]
  | _ :: _, [] => by simp [charListLt]
  | x :: xs, y :: ys => by
    simp only [charListLt]
    rcases lt_trichotomy x y with h | h | h
    · simp [h, not_lt_of_gt h]
    · subst h
      simp [lt_irrefl]
      exact charListLt_asymm xs ys
    · simp [h, not_lt_of_gt h]

theorem charListLt_eq : ∀ a b : List Char, charListLt a b = false → charListLt b a = false → a = b
  | [], [] => by simp
  | [], _ :: _ => by simp [charListLt]
  | _ :: _, [] => by simp [charListLt]
  | x :: xs, y :: ys => by
    simp only [charListLt]
    rcases lt_trichotomy x y with h | h | h
    · simp [h]
    · subst h
      simp [lt_irrefl]
      exact charListLt_eq xs ys
    · simp [h, not_lt_of_gt h]

theorem localeCompare_antisymm (a b : String) : localeCompare a b = -localeCompare b a := by
  unfold localeCompare
  rcases h1 : charListLt a.data b.data <;> rcases h2 : charListLt b.data a.data <;> simp
  exact absurd (charListLt_asymm _ _ h1) (by simp [h2])

theorem localeCompare_self (a : String) : localeCompare a a = 0 := by
  unfold localeCompare
  have h : charListLt a.data a.data = false := by
    cases h : charListLt a.data a.data
    · rfl
    · exact absurd (charListLt_asymm _ _ h) (by simp [h])
  simp [h]

theorem localeCompare_eq_zero_iff (a b : String) : localeCompare a b = 0 ↔ a = b := by
  constructor
  · intro h
    unfold localeCompare at h
    rcases h1 : charListLt a.data b.data <;> rcases h2 : charListLt b.data a.data <;>
      simp [h1, h2] at h ⊢
    · cases a; cases b
      exact congrArg String.mk (charListLt_eq _ _ h1 h2)
  · intro h; subst h; exact localeCompare_self a

theorem compareVersions_self (a : String) : compareVersions a a = 0 := by
  unfold compareVersions
  cases h : parseVersion a with
  | none => simp [localeCompare_self]
  | some pa =>
    cases hp : pa.prerelease <;> simp [hp, localeCompare_self]

theorem compareVersions_antisymm (a b : String) : compareVersions a b = -compareVersions b a := by
  unfold compareVersions
  cases ha : parseVersion a <;> cases hb : parseVersion b
  · simpa using localeCompare_antisymm a b
  · simpa using localeCompare_antisymm a b
  · simpa using localeCompare_antisymm a b
  · rename_i pa pb
    by_cases h1 : pa.major = pb.major
    · by_cases h2 : pa.minor = pb.minor
      · by_cases h3 : pa.patch = pb.patch
        · simp [h1, h2, h3]
          cases hx : pa.prerelease <;> cases hy : pb.prerelease <;> simp
          exact localeCompare_antisymm _ _
        · simp [h1, h2, h3, Ne.symm h3]
      · simp [h1, h2, Ne.symm h2]
    · simp [h1, Ne.symm h1]

theorem compareVersions_neg_of_pos (a b : String) (h : compareVersions a b > 0) :
    compareVersions b a < 0 := by
  have := compareVersions_antisymm a b
  omega

theorem compareVersions_le_of_not_lt (a b : String) (h : ¬ compareVersions b a < 0) :
    compareVersions a b ≤ 0 := by
  have := compareVersions_antisymm a b
  omega

-- ============================================================================
-- Lemmas: the stable sort
-- ============================================================================

theorem insertStable_perm (lt : α → α → Bool) (x : α) :
    ∀ l : List α, List.Perm (insertStable lt x l) (x :: l)
  | [] => List.Perm.refl _
  | y :: ys => by
    simp only [insertStable]
    by_cases h : lt x y
    · simp [h]
    · simp only [h, if_false, Bool.false_eq_true]
      exact (((insertStable_perm lt x ys).cons y)).trans (List.Perm.swap x y ys)

theorem sortStableAux_perm (lt : α → α → Bool) :
    ∀ (l acc : List α), List.Perm (sortStableAux lt l acc) (l ++ acc)
  | [], acc => by simp [sortStableAux]
  | x :: xs, acc => by
    simp only [sortStableAux, List.cons_append]
    exact (sortStableAux_perm lt xs (insertStable lt x acc)).trans
      ((List.Perm.append_left xs (insertStable_perm lt x acc)).trans List.perm_middle)

theorem sortStable_perm (lt : α → α → Bool) (l : List α) :
    List.Perm (sortStable lt l) l := by
  simpa using sortStableAux_perm lt l []

theorem mem_sortStable (lt : α → α → Bool) (l : List α) (a : α) :
    a ∈ sortStable lt l ↔ a ∈ l :=
  (sortStable_perm lt l).mem_iff

theorem insertStable_pairwise (lt : α → α → Bool) (p : α → Prop)
    (hasym : ∀ a b, p a → p b → lt a b = true → lt b a = false)
    (htrans : ∀ a b c, p a → p b → p c → lt a b = true → lt b c = true → lt a c = true)
    (x : α) (hx : p x) :
    ∀ acc : List α, (∀ a ∈ acc, p a) → acc.Pairwise (fun a b => lt b a = false) →
      (insertStable lt x acc).Pairwise (fun a b => lt b a = false)
  | [], _, _ => by simp [insertStable]
  | y :: ys, hp, hpw => by
    simp only [insertStable]
    rw [List.pairwise_cons] at hpw
    by_cases h : lt x y
    · simp only [h, if_true]
      rw [List.pairwise_cons]
      refine ⟨?_, by rw [List.pairwise_cons]; exact hpw⟩
      intro b hb
      rcases List.mem_cons.mp hb with rfl | hb
      · exact hasym x b hx (hp b (List.mem_cons_self _ _)) h
      · cases hbx : lt b x with
        | false => rfl
        | true =>
          have hby : lt b y = true :=
            htrans b x y (hp b (List.mem_cons_of_mem _ hb)) hx
              (hp y (List.mem_cons_self _ _)) hbx h
          exact absurd hby (by simp [hpw.1 b hb])
    · simp only [h, if_false, Bool.false_eq_true]
      rw [List.pairwise_cons]
      constructor
      · intro b hb
        rcases List.mem_cons.mp ((insertStable_perm lt x ys).mem_iff.mp hb) with rfl | hb
        · simpa using h
        · exact hpw.1 b hb
      · exact insertStable_pairwise lt p hasym htrans x hx ys
          (fun a ha => hp a (List.mem_cons_of_mem _ ha)) hpw.2

theorem sortStableAux_pairwise (lt : α → α → Bool) (p : α → Prop)
    (hasym : ∀ a b, p a → p b → lt a b = true → lt b a = false)
    (htrans : ∀ a b c, p a → p b → p c → lt a b = true → lt b c = true → lt a c = true) :
    ∀ (l acc : List α), (∀ a ∈ l, p a) → (∀ a ∈ acc, p a) →
      acc.Pairwise (fun a b => lt b a = false) →
      (sortStableAux lt l acc).Pairwise (fun a b => lt b a = false)
  | [], _, _, _, hpw => hpw
  | x :: xs, acc, hl, hacc, hpw => by
    simp only [sortStableAux]
    refine sortStableAux_pairwise lt p hasym htrans xs (insertStable lt x acc)
      (fun a ha => hl a (List.mem_cons_of_mem _ ha)) ?_ ?_
    · intro a ha
      rcases List.mem_cons.mp ((insertStable_perm lt x acc).mem_iff.mp ha) with rfl | ha
      · exact hl a (List.mem_cons_self _ _)
      · exact hacc a ha
    · exact insertStable_pairwise lt p hasym htrans x (hl x (List.mem_cons_self _ _))
        acc hacc hpw

theorem sortStable_pairwise (lt : α → α → Bool) (p : α → Prop)
    (hasym : ∀ a b, p a → p b → lt a b = true → lt b a = false)
    (htrans : ∀ a b c, p a → p b → p c → lt a b = true → lt b c = true → lt a c = true)
    (l : List α) (hl : ∀ a ∈ l, p a) :
    (sortStable lt l).Pairwise (fun a b => lt b a = false) :=
  sortStableAux_pairwise lt p hasym htrans l [] hl (by simp) (by simp)

theorem pairwise_rel_getLast {R : α → α → Prop} (l : List α) (hpw : l.Pairwise R)
    (m : α) (hm : l.getLast? = some m) : ∀ x ∈ l, x = m ∨ R x m := by
  rcases List.getLast?_eq_some_iff.mp hm with ⟨l', rfl⟩
  rw [List.pairwise_append] at hpw
  intro x hx
  rcases List.mem_append.mp hx with hx | hx
  · exact Or.inr (hpw.2.2 x hx m (List.mem_singleton_self m))
  · exact Or.inl (List.mem_singleton.mp hx)

-- ============================================================================
-- Lemmas: filter stability of the key-based sort
-- ============================================================================

theorem insertStable_filter_key (f : α → Nat) (k : Nat) (x : α) :
    ∀ acc : List α, acc.Pairwise (fun a b => decide (f b < f a) = false) →
      (insertStable (fun a b => decide (f a < f b)) x acc).filter (fun a => decide (f a = k)) =
        acc.filter (fun a => decide (f a = k)) ++ (if f x = k then [x] else [])
  | [], _ => by by_cases h : f x = k <;> simp [insertStable, h]
  | y :: ys, hpw => by
    rw [List.pairwise_cons] at hpw
    simp only [insertStable]
    by_cases h : f x < f y
    · rw [if_pos (by simp [h])]
      by_cases hk : f x = k
      · have hnil : (y :: ys).filter (fun a => decide (f a = k)) = [] := by
          rw [List.filter_eq_nil_iff]
          intro w hw
          rcases List.mem_cons.mp hw with rfl | hw
          · simp only [decide_eq_true_eq]
            omega
          · have hw2 := hpw.1 w hw
            simp only [decide_eq_false_iff_not] at hw2
            simp only [decide_eq_true_eq]
            omega
        rw [List.filter_cons_of_pos (by simp [hk]), hnil]
        have h2 : ∀ w ∈ y :: ys, ¬ (decide (f w = k) = true) :=
          List.filter_eq_nil_iff.mp hnil
        simp [hk]
      · rw [List.filter_cons_of_neg (by simp [hk])]
        simp [hk]
    · rw [if_neg (by simp [h])]
      rw [List.filter_cons, List.filter_cons]
      by_cases hy : f y = k
      · rw [if_pos (by simp [hy]), if_pos (by simp [hy]), List.cons_append,
          insertStable_filter_key f k x ys hpw.2]
      · rw [if_neg (by simp [hy]), if_neg (by simp [hy]),
          insertStable_filter_key f k x ys hpw.2]

theorem sortStableAux_filter_key (f : α → Nat) (k : Nat) :
    ∀ (l acc : List α), acc.Pairwise (fun a b => decide (f b < f a) = false) →
      (sortStableAux (fun a b => decide (f a < f b)) l acc).filter (fun a => decide (f a = k)) =
        acc.filter (fun a => decide (f a = k)) ++ l.filter (fun a => decide (f a = k))
  | [], acc, _ => by simp [sortStableAux]
  | x :: xs, acc, hpw => by
    simp only [sortStableAux]
    have hins : (insertStable (fun a b => decide (f a < f b)) x acc).Pairwise
        (fun a b => decide (f b < f a) = false) := by
      refine insertStable_pairwise _ (fun _ => True) ?_ ?_ x trivial acc (by simp) hpw
      · intro a b _ _ hab
        simp at hab ⊢
        omega
      · intro a b c _ _ _ hab hbc
        simp at hab hbc ⊢
        omega
    rw [sortStableAux_filter_key f k xs _ hins, insertStable_filter_key f k x acc hpw,
      List.filter_cons]
    by_cases hx : f x = k
    · simp [hx]
    · simp [hx]

theorem sortStable_filter_key (f : α → Nat) (k : Nat) (l : List α) :
    (sortStable (fun a b => decide (f a < f b)) l).filter (fun a => decide (f a = k)) =
      l.filter (fun a => decide (f a = k)) := by
  simpa using sortStableAux_filter_key f k l [] (by simp)

-- ============================================================================
-- Lemmas: dedupFirst
-- ============================================================================

theorem mem_dedupFirstAux : ∀ (l seen : List String) (x : String),
    x ∈ dedupFirstAux seen l ↔ x ∈ l ∧ x ∉ seen
  | [], seen, x => by simp [dedupFirstAux]
  | y :: ys, seen, x => by
    simp only [dedupFirstAux]
    by_cases h : y ∈ seen
    · rw [if_pos h, mem_dedupFirstAux ys seen x, List.mem_cons]
      constructor
      · exact fun hp => ⟨Or.inr hp.1, hp.2⟩
      · rintro ⟨(rfl | hm), hs⟩
        · exact absurd h hs
        · exact ⟨hm, hs⟩
    · rw [if_neg h, List.mem_cons, List.mem_cons, mem_dedupFirstAux ys (y :: seen) x,
        List.mem_cons]
      constructor
      · rintro (rfl | ⟨hm, hs⟩)
        · exact ⟨Or.inl rfl, h⟩
        · exact ⟨Or.inr hm, fun hx => hs (Or.inr hx)⟩
      · rintro ⟨(rfl | hm), hs⟩
        · exact Or.inl rfl
        · by_cases hxy : x = y
          · exact Or.inl hxy
          · exact Or.inr ⟨hm, by simp [hxy, hs]⟩

theorem mem_dedupFirst (l : List String) (x : String) : x ∈ dedupFirst l ↔ x ∈ l := by
  rw [dedupFirst, mem_dedupFirstAux]
  simp

-- ============================================================================
-- Lemmas: findMinimumSafeVersion characterization
-- ============================================================================

theorem versionLtB_false_le (a b : String) (h : versionLtB a b = false) :
    compareVersions b a ≤ 0 := by
  have ha := compareVersions_antisymm a b
  simp [versionLtB] at h
  omega

theorem versionLtB_asymm (a b : String) (h : versionLtB a b = true) :
    versionLtB b a = false := by
  have ha := compareVersions_antisymm a b
  simp [versionLtB] at h ⊢
  omega

theorem findLoop_unparsed (cur f : String) (rest : List String) :
    findLoop none cur (f :: rest) = some f := by
  simp [findLoop]

theorem findLoop_parsed (pv : ParsedVersion) (cur : String) :
    ∀ l : List String,
      findLoop (some pv) cur l = l.find? (fun f => decide (compareVersions f cur > 0))
  | [] => by simp [findLoop]
  | f :: rest => by
    by_cases h : compareVersions f cur > 0
    · rw [List.find?_cons_of_pos _ (by simp [h])]
      simp [findLoop, h]
    · rw [List.find?_cons_of_neg _ (by simp [h])]
      simp only [findLoop, Option.isNone_some, Bool.false_eq_true, if_false, if_neg h]
      exact findLoop_parsed pv cur rest

theorem find?_min_of_pairwise (cur : String) :
    ∀ l : List String, l.Pairwise (fun a b => versionLtB b a = false) →
      ∀ m, l.find? (fun f => decide (compareVersions f cur > 0)) = some m →
        compareVersions m cur > 0 ∧ m ∈ l ∧
          ∀ x ∈ l, compareVersions x cur > 0 → compareVersions m x ≤ 0
  | [], _, m => by simp [List.find?]
  | f :: rest, hpw, m => by
    rw [List.pairwise_cons] at hpw
    by_cases h : compareVersions f cur > 0
    · rw [List.find?_cons_of_pos _ (by simp [h])]
      intro hm
      rw [Option.some_inj] at hm
      subst hm
      refine ⟨h, List.mem_cons_self _ _, ?_⟩
      intro x hx _
      rcases List.mem_cons.mp hx with rfl | hx
      · simp [compareVersions_self]
      · exact versionLtB_false_le x f (hpw.1 x hx)
    · rw [List.find?_cons_of_neg _ (by simp [h])]
      intro hfind
      obtain ⟨h1, h2, h3⟩ := find?_min_of_pairwise cur rest hpw.2 m hfind
      refine ⟨h1, List.mem_cons_of_mem _ h2, ?_⟩
      intro x hx hgt
      rcases List.mem_cons.mp hx with rfl | hx
      · exact absurd hgt h
      · exact h3 x hx hgt

theorem sortStable_ne_nil (lt : α → α → Bool) (l : List α) (h : l ≠ []) :
    sortStable lt l ≠ [] := by
  intro hc
  have hlen := (sortStable_perm lt l).length_eq
  rw [hc] at hlen
  exact h (List.length_eq_zero.mp hlen.symm)

theorem sortStable_versions_pairwise (S : List String)
    (htr : ∀ x ∈ S, ∀ y ∈ S, ∀ z ∈ S,
      versionLtB x y = true → versionLtB y z = true → versionLtB x z = true) :
    (sortStable versionLtB S).Pairwise (fun a b => versionLtB b a = false) :=
  sortStable_pairwise versionLtB (fun a => a ∈ S)
    (fun a b _ _ hab => versionLtB_asymm a b hab)
    (fun a b c ha hb hc => htr a ha b hb c hc)
    S (fun _ ha => ha)

theorem fmsv_spec (cur : String) (S : List String)
    (htr : ∀ x ∈ S, ∀ y ∈ S, ∀ z ∈ S,
      versionLtB x y = true → versionLtB y z = true → versionLtB x z = true) :
    (findMinimumSafeVersion cur S = none ↔ S = []) ∧
    (∀ m, findMinimumSafeVersion cur S = some m →
      m ∈ S ∧
      (parseVersion cur = none → ∀ x ∈ S, compareVersions m x ≤ 0) ∧
      (parseVersion cur ≠ none → (∃ x ∈ S, compareVersions x cur > 0) →
        compareVersions m cur > 0 ∧
        ∀ x ∈ S, compareVersions x cur > 0 → compareVersions m x ≤ 0) ∧
      (parseVersion cur ≠ none → (∀ x ∈ S, ¬ compareVersions x cur > 0) →
        ∀ x ∈ S, compareVersions x m ≤ 0)) := by
  by_cases hS : S = []
  · subst hS
    constructor
    · simp [findMinimumSafeVersion]
    · intro m hm
      simp [findMinimumSafeVersion] at hm
  · have hlen : ¬ S.length = 0 := by simpa [List.length_eq_zero] using hS
    have hpw := sortStable_versions_pairwise S htr
    have hmem : ∀ x, x ∈ sortStable versionLtB S ↔ x ∈ S := mem_sortStable versionLtB S
    cases hp : parseVersion cur with
    | none =>
      obtain ⟨s0, rest, hsr⟩ : ∃ s0 rest, sortStable versionLtB S = s0 :: rest := by
        cases hq : sortStable versionLtB S with
        | nil => exact absurd hq (sortStable_ne_nil _ _ hS)
        | cons a as => exact ⟨a, as, rfl⟩
      have hres : findMinimumSafeVersion cur S = some s0 := by
        simp only [findMinimumSafeVersion, if_neg hlen, hp, hsr, findLoop_unparsed]
      refine ⟨⟨fun hc => absurd hres (by simp [hc]), fun hc => absurd hc hS⟩, ?_⟩
      intro m hm
      rw [hres, Option.some_inj] at hm
      subst hm
      have hm_mem : s0 ∈ S := (hmem s0).mp (by rw [hsr]; exact List.mem_cons_self _ _)
      refine ⟨hm_mem, ?_, ?_, ?_⟩
      · intro _ x hx
        have hx2 : x ∈ s0 :: rest := by rw [← hsr]; exact (hmem x).mpr hx
        rcases List.mem_cons.mp hx2 with rfl | hx2
        · simp [compareVersions_self]
        · rw [hsr, List.pairwise_cons] at hpw
          exact versionLtB_false_le x s0 (hpw.1 x hx2)
      · intro hc
        exact absurd rfl hc
      · intro hc
        exact absurd rfl hc
    | some pv =>
      cases hfind : (sortStable versionLtB S).find?
          (fun f => decide (compareVersions f cur > 0)) with
      | some m' =>
        have hres : findMinimumSafeVersion cur S = some m' := by
          simp only [findMinimumSafeVersion, if_neg hlen, hp, findLoop_parsed, hfind]
        obtain ⟨h1, h2, h3⟩ := find?_min_of_pairwise cur _ hpw m' hfind
        refine ⟨⟨fun hc => absurd hres (by simp [hc]), fun hc => absurd hc hS⟩, ?_⟩
        intro m hm
        rw [hres, Option.some_inj] at hm
        subst hm
        refine ⟨(hmem m').mp h2, ?_, ?_, ?_⟩
        · intro hc
          exact absurd hc (by simp)
        · intro _ _
          exact ⟨h1, fun x hx hgt => h3 x ((hmem x).mpr hx) hgt⟩
        · intro _ hall
          exact absurd h1 (hall m' ((hmem m').mp h2))
      | none =>
        obtain ⟨g, hg⟩ : ∃ g, (sortStable versionLtB S).getLast? = some g :=
          Option.ne_none_iff_exists'.mp
            (by simp [List.getLast?_eq_none_iff, sortStable_ne_nil versionLtB S hS])
        have hres : findMinimumSafeVersion cur S = some g := by
          simp only [findMinimumSafeVersion, if_neg hlen, hp, findLoop_parsed, hfind, hg]
        have hg_mem : g ∈ S := by
          rcases List.getLast?_eq_some_iff.mp hg with ⟨l', hl'⟩
          exact (hmem g).mp (by rw [hl']; simp)
        have hnone : ∀ x ∈ sortStable versionLtB S,
            ¬ ((fun f => decide (compareVersions f cur > 0)) x = true) :=
          List.find?_eq_none.mp hfind
        refine ⟨⟨fun hc => absurd hres (by simp [hc]), fun hc => absurd hc hS⟩, ?_⟩
        intro m hm
        rw [hres, Option.some_inj] at hm
        subst hm
        refine ⟨hg_mem, ?_, ?_, ?_⟩
        · intro hc
          exact absurd hc (by simp)
        · rintro _ ⟨x, hx, hgt⟩
          exact absurd (by simpa using hgt) (by simpa using hnone x ((hmem x).mpr hx))
        · intro _ _ x hx
          have hlast := pairwise_rel_getLast _ hpw g hg x ((hmem x).mpr hx)
          rcases hlast with rfl | hrel
          · simp [compareVersions_self]
          · exact versionLtB_false_le g x hrel

-- ============================================================================
-- Lemmas: parseVersion on four-component inputs
-- ============================================================================

theorem takeWhile_all_append (p : Char → Bool) :
    ∀ (l1 : List Char) (d : Char) (t : List Char),
      (∀ c ∈ l1, p c = true) → p d = false →
      (l1 ++ d :: t).takeWhile p = l1 ∧ (l1 ++ d :: t).dropWhile p = d :: t
  | [], d, t, _, hd => by simp [List.takeWhile_cons, List.dropWhile_cons, hd]
  | c :: l1, d, t, h1, hd => by
    have hc : p c = true := h1 c (List.mem_cons_self _ _)
    have ih := takeWhile_all_append p l1 d t (fun x hx => h1 x (List.mem_cons_of_mem _ hx)) hd
    simp [List.takeWhile_cons, List.dropWhile_cons, hc, ih.1, ih.2]

theorem parseVersion_four_components (X Y Z W : List Char)
    (hX : X ≠ []) (hXd : ∀ c ∈ X, c.isDigit = true)
    (hY : Y ≠ []) (hYd : ∀ c ∈ Y, c.isDigit = true)
    (hZ : Z ≠ []) (hZd : ∀ c ∈ Z, c.isDigit = true)
    (hW : W ≠ []) :
    parseVersion (String.mk (X ++ '.' :: (Y ++ '.' :: (Z ++ '.' :: W)))) =
      some { major := digitsToNat X, minor := digitsToNat Y, patch := digitsToNat Z,
             prerelease := some (String.mk W),
             original := String.mk (X ++ '.' :: (Y ++ '.' :: (Z ++ '.' :: W))) } := by
  have hdot : ('.' : Char).isDigit = false := by decide
  have hpre : tryPre ('.' :: W) = some (some W) := by
    simp [tryPre, hW]
  have hpatch : tryPatch ('.' :: (Z ++ '.' :: W)) = some (some Z, some W) := by
    obtain ⟨htake, hdrop⟩ := takeWhile_all_append Char.isDigit Z '.' W hZd hdot
    simp only [tryPatch, if_true, htake, hdrop]
    rw [if_neg hZ, hpre]
  have hminor : tryMinor ('.' :: (Y ++ '.' :: (Z ++ '.' :: W))) =
      some (some Y, some Z, some W) := by
    obtain ⟨htake, hdrop⟩ :=
      takeWhile_all_append Char.isDigit Y '.' (Z ++ '.' :: W) hYd hdot
    simp only [tryMinor, if_true, htake, hdrop]
    rw [if_neg hY, hpatch]
  obtain ⟨x0, X', rfl⟩ : ∃ x0 X', X = x0 :: X' := by
    cases X with
    | nil => exact absurd rfl hX
    | cons a as => exact ⟨a, as, rfl⟩
  have hx0 : x0.isDigit = true := hXd x0 (List.mem_cons_self _ _)
  have hx0v : ¬ x0 = 'v' := by
    intro h
    rw [h] at hx0
    exact absurd hx0 (by decide)
  obtain ⟨htakeX, hdropX⟩ :=
    takeWhile_all_append Char.isDigit (x0 :: X') '.' (Y ++ '.' :: (Z ++ '.' :: W)) hXd hdot
  simp only [parseVersion, List.cons_append, if_neg hx0v]
  rw [List.cons_append] at htakeX hdropX
  simp only [htakeX, hdropX, hminor]
  simp

-- ============================================================================
-- Lemmas: the yarn-lock state machine
-- ============================================================================

theorem yarnFlush_no_version (st : YarnState) (h : st.currentVersion = none) :
    yarnFlush st = st := by
  simp [yarnFlush, h]

theorem yarnStep_no_version (st : YarnState) (l : List Char)
    (hv : yarnVersionMatch l = none) (h1 : st.deps = []) (h2 : st.currentVersion = none) :
    (yarnStep st l).deps = [] ∧ (yarnStep st l).currentVersion = none := by
  simp only [yarnStep]
  split
  · exact ⟨h1, h2⟩
  · split
    · rw [yarnFlush_no_version st h2]
      exact ⟨h1, rfl⟩
    · rw [hv]
      exact ⟨h1, h2⟩

theorem yarnFold_no_version :
    ∀ (lines : List (List Char)) (st : YarnState),
      (∀ l ∈ lines, yarnVersionMatch l = none) →
      st.deps = [] → st.currentVersion = none →
      (lines.foldl yarnStep st).deps = [] ∧ (lines.foldl yarnStep st).currentVersion = none
  | [], st, _, h1, h2 => ⟨h1, h2⟩
  | l :: ls, st, hml, h1, h2 => by
    simp only [List.foldl_cons]
    obtain ⟨h1', h2'⟩ :=
      yarnStep_no_version st l (hml l (List.mem_cons_self _ _)) h1 h2
    exact yarnFold_no_version ls (yarnStep st l)
      (fun x hx => hml x (List.mem_cons_of_mem _ hx)) h1' h2'

theorem yarnFlushAux_inv (ver : String) :
    ∀ (pkgs : List String) (deps : List ParsedDependency) (seen : List String),
      (∀ d ∈ deps, yarnKey d ∈ seen) →
      deps.Pairwise (fun d e => yarnKey d ≠ yarnKey e) →
      (∀ d ∈ (yarnFlushAux ver pkgs deps seen).1,
        yarnKey d ∈ (yarnFlushAux ver pkgs deps seen).2) ∧
      (yarnFlushAux ver pkgs deps seen).1.Pairwise (fun d e => yarnKey d ≠ yarnKey e)
  | [], deps, seen, hmem, hpw => ⟨hmem, hpw⟩
  | pkg :: rest, deps, seen, hmem, hpw => by
    simp only [yarnFlushAux]
    by_cases h : pkg ++ "@" ++ ver ∈ seen
    · rw [if_pos h]
      exact yarnFlushAux_inv ver rest deps seen hmem hpw
    · rw [if_neg h]
      refine yarnFlushAux_inv ver rest (deps ++ [⟨"npm", pkg, ver⟩])
        ((pkg ++ "@" ++ ver) :: seen) ?_ ?_
      · intro d hd
        rcases List.mem_append.mp hd with hd | hd
        · exact List.mem_cons_of_mem _ (hmem d hd)
        · rw [List.mem_singleton.mp hd]
          exact List.mem_cons_self _ _
      · rw [List.pairwise_append]
        refine ⟨hpw, List.pairwise_singleton _ _, ?_⟩
        intro d hd e he
        rw [List.mem_singleton.mp he]
        intro hk
        apply h
        rw [show yarnKey ⟨"npm", pkg, ver⟩ = pkg ++ "@" ++ ver from rfl] at hk
        rw [← hk]
        exact hmem d hd

theorem yarnFlush_inv (st : YarnState)
    (hmem : ∀ d ∈ st.deps, yarnKey d ∈ st.seen)
    (hpw : st.deps.Pairwise (fun d e => yarnKey d ≠ yarnKey e)) :
    (∀ d ∈ (yarnFlush st).deps, yarnKey d ∈ (yarnFlush st).seen) ∧
    (yarnFlush st).deps.Pairwise (fun d e => yarnKey d ≠ yarnKey e) := by
  simp only [yarnFlush]
  split
  · split
    · exact yarnFlushAux_inv _ _ _ _ hmem hpw
    · exact ⟨hmem, hpw⟩
  · exact ⟨hmem, hpw⟩

theorem yarnStep_inv (st : YarnState) (l : List Char)
    (hmem : ∀ d ∈ st.deps, yarnKey d ∈ st.seen)
    (hpw : st.deps.Pairwise (fun d e => yarnKey d ≠ yarnKey e)) :
    (∀ d ∈ (yarnStep st l).deps, yarnKey d ∈ (yarnStep st l).seen) ∧
    (yarnStep st l).deps.Pairwise (fun d e => yarnKey d ≠ yarnKey e) := by
  simp only [yarnStep]
  split
  · exact ⟨hmem, hpw⟩
  · split
    · exact yarnFlush_inv st hmem hpw
    · split
      · exact ⟨hmem, hpw⟩
      · exact ⟨hmem, hpw⟩

theorem yarnFold_inv :
    ∀ (lines : List (List Char)) (st : YarnState),
      (∀ d ∈ st.deps, yarnKey d ∈ st.seen) →
      st.deps.Pairwise (fun d e => yarnKey d ≠ yarnKey e) →
      (∀ d ∈ (lines.foldl yarnStep st).deps, yarnKey d ∈ (lines.foldl yarnStep st).seen) ∧
      (lines.foldl yarnStep st).deps.Pairwise (fun d e => yarnKey d ≠ yarnKey e)
  | [], _, hmem, hpw => ⟨hmem, hpw⟩
  | l :: ls, st, hmem, hpw => by
    simp only [List.foldl_cons]
    obtain ⟨h1, h2⟩ := yarnStep_inv st l hmem hpw
    exact yarnFold_inv ls (yarnStep st l) h1 h2

theorem parseYarnLock_nodup (text : String) :
    (parseYarnLock text).Pairwise (fun d e => yarnKey d ≠ yarnKey e) := by
  unfold parseYarnLock
  obtain ⟨h1, h2⟩ :=
    yarnFold_inv (splitOnChar '\n' text.data) ⟨[], [], [], none⟩ (by simp) (by simp)
  exact (yarnFlush_inv _ h1 h2).2

theorem parseYarnLock_no_version (text : String)
    (h : ∀ l ∈ splitOnChar '\n' text.data, yarnVersionMatch l = none) :
    parseYarnLock text = [] := by
  obtain ⟨h1, h2⟩ :=
    yarnFold_no_version (splitOnChar '\n' text.data) ⟨[], [], [], none⟩ h rfl rfl
  show (yarnFlush (List.foldl yarnStep ⟨[], [], [], none⟩ (splitOnChar '\n' text.data))).deps = []
  rw [yarnFlush_no_version _ h2]
  exact h1

-- ============================================================================
-- Lemmas: parsePackageLock
-- ============================================================================

theorem packagesExtract_skip_root (pkg : PLPkg) (rest : List (String × PLPkg)) :
    packagesExtract (some (("", pkg) :: rest)) = packagesExtract (some rest) := by
  simp [packagesExtract]

theorem parsePackageLock_v2_priority (data : PackageLockData)
    (h : packagesExtract data.packages ≠ []) :
    parsePackageLock data = packagesExtract data.packages := by
  cases hd : data.dependencies with
  | none => simp only [parsePackageLock, hd]
  | some m =>
    simp only [parsePackageLock, hd]
    rw [if_neg]
    intro hc
    exact h (List.length_eq_zero.mp hc)

theorem replaceAllAux_head_slash (pat' rep : List Char) :
    ∀ (cs : List Char) (fuel : Nat), (∀ c ∈ cs, c ≠ '/') →
      replaceAllAux ('/' :: pat') rep cs fuel = cs
  | cs, 0, _ => by cases cs <;> rfl
  | [], _ + 1, _ => rfl
  | c :: cs, fuel + 1, h => by
    have hc : c ≠ '/' := h c (List.mem_cons_self _ _)
    have hpre : ('/' :: pat').isPrefixOf (c :: cs) = false := by
      simp [List.isPrefixOf, Ne.symm hc]
    simp only [replaceAllAux, hpre, false_and, if_false, Bool.false_eq_true]
    rw [replaceAllAux_head_slash pat' rep cs fuel (fun x hx => h x (List.mem_cons_of_mem _ hx))]

theorem packagePathName_no_slash (n : String) (hn : ∀ c ∈ n.data, c ≠ '/') :
    packagePathName ("node_modules/" ++ n) = n := by
  unfold packagePathName
  have hdata : ("node_modules/" ++ n).data = "node_modules/".data ++ n.data :=
    String.data_append "node_modules/" n
  have hpref : "node_modules/".data.isPrefixOf ("node_modules/" ++ n).data = true := by
    rw [hdata, List.isPrefixOf_iff_prefix]
    exact List.prefix_append _ _
  rw [if_pos hpref]
  have hdrop : ("node_modules/" ++ n).data.drop 13 = n.data := by
    rw [hdata]
    have h13 : ("node_modules/".data).length = 13 := by decide
    rw [← h13]
    exact List.drop_left _ _
  rw [hdrop]
  show String.mk (replaceAllAux ('/' :: "node_modules/".data) "/".data n.data n.data.length) = n
  rw [replaceAllAux_head_slash _ _ n.data n.data.length hn]

-- ============================================================================
-- Lemmas: structure of suggestFixes
-- ============================================================================

theorem suggestFixes_suggestions_eq (input : List VulnResult) :
    (suggestFixes input).suggestions =
      sortStable (fun a b => decide (priorityOrder a.priority < priorityOrder b.priority))
        ((input.filter (fun r => !r.vulnerabilities.isEmpty)).map buildSuggestion) := rfl

theorem suggestFixes_total_eq (input : List VulnResult) :
    (suggestFixes input).summary.total = (suggestFixes input).suggestions.length := rfl

theorem suggestFixes_byPriority_eq (input : List VulnResult) :
    (suggestFixes input).summary.by_priority =
      ((input.filter (fun r => !r.vulnerabilities.isEmpty)).map buildSuggestion).foldl
        (fun bp s => bumpPriority bp s.priority) ⟨0, 0, 0, 0⟩ := rfl

theorem buildSuggestion_suggested_version (r : VulnResult) :
    (buildSuggestion r).suggested_version =
      findMinimumSafeVersion (currentVersionOf r.dependency) (uniqueFixedOf r.vulnerabilities) :=
  rfl

theorem buildSuggestion_action (r : VulnResult) :
    (buildSuggestion r).action =
      match findMinimumSafeVersion (currentVersionOf r.dependency)
          (uniqueFixedOf r.vulnerabilities) with
      | some sv => if sv ≠ "" then FixAction.upgrade else FixAction.review
      | none => FixAction.review := by
  show (match findMinimumSafeVersion (currentVersionOf r.dependency)
      (uniqueFixedOf r.vulnerabilities) with
    | some sv =>
      if sv ≠ "" then
        (FixAction.upgrade,
          ["Upgrade from " ++ currentVersionOf r.dependency ++ " to " ++ sv] ++
            (match parseVersion (currentVersionOf r.dependency), parseVersion sv with
             | some cp, some sp =>
               if sp.major > cp.major then
                 ["Warning: This is a major version upgrade - review changelog for breaking changes"]
               else []
             | _, _ => []))
      else
        (FixAction.review,
          ["No fixed version available - consider alternative packages or manual mitigation"])
    | none =>
      (FixAction.review,
        ["No fixed version available - consider alternative packages or manual mitigation"])).1 =
    match findMinimumSafeVersion (currentVersionOf r.dependency)
        (uniqueFixedOf r.vulnerabilities) with
    | some sv => if sv ≠ "" then FixAction.upgrade else FixAction.review
    | none => FixAction.review
  cases findMinimumSafeVersion (currentVersionOf r.dependency)
      (uniqueFixedOf r.vulnerabilities) with
  | none => rfl
  | some sv =>
    by_cases h : sv = "" <;> simp [h]

theorem mem_suggestions_iff (input : List VulnResult) (s : FixSuggestion) :
    s ∈ (suggestFixes input).suggestions ↔
      ∃ r ∈ input, r.vulnerabilities ≠ [] ∧ s = buildSuggestion r := by
  rw [suggestFixes_suggestions_eq, mem_sortStable, List.mem_map]
  constructor
  · rintro ⟨r, hr, rfl⟩
    rw [List.mem_filter] at hr
    refine ⟨r, hr.1, ?_, rfl⟩
    simpa using hr.2
  · rintro ⟨r, hr, hv, rfl⟩
    exact ⟨r, List.mem_filter.mpr ⟨hr, by simpa using hv⟩, rfl⟩

theorem sumBP_bump (bp : ByPriority) (p : Priority) :
    sumBP (bumpPriority bp p) = sumBP bp + 1 := by
  cases p <;> simp [bumpPriority, sumBP] <;> omega

theorem sumBP_foldl :
    ∀ (l : List FixSuggestion) (bp : ByPriority),
      sumBP (l.foldl (fun b s => bumpPriority b s.priority) bp) = sumBP bp + l.length
  | [], bp => by simp
  | s :: ss, bp => by
    simp only [List.foldl_cons, List.length_cons]
    rw [sumBP_foldl ss (bumpPriority bp s.priority), sumBP_bump]
    omega

-- ============================================================================
-- Claim theorems
-- ============================================================================

/-- C3: compareVersions is defined for every pair of strings (it is a
total Lean function, modelling that the source never throws); whenever
either side fails to parse, it equals the raw lexicographic comparison
of the two original strings, and in that case it is zero exactly when
the two strings are identical. -/
theorem c3_compare_fallback (a b : String)
    (h : parseVersion a = none ∨ parseVersion b = none) :
    compareVersions a b = localeCompare a b ∧ (compareVersions a b = 0 ↔ a = b) := by
  have heq : compareVersions a b = localeCompare a b := by
    unfold compareVersions
    rcases h with h | h
    · rw [h]
    · rw [h]
      cases parseVersion a <;> rfl
  refine ⟨heq, ?_⟩
  rw [heq]
  exact localeCompare_eq_zero_iff a b

theorem c3_witness :
    (parseVersion "not-a-version" = none ∨ parseVersion "1.2.3" = none) ∧
    compareVersions "not-a-version" "1.2.3" = localeCompare "not-a-version" "1.2.3" ∧
    (compareVersions "not-a-version" "1.2.3" = 0 ↔ "not-a-version" = "1.2.3") :=
  ⟨Or.inl (by decide), c3_compare_fallback "not-a-version" "1.2.3" (Or.inl (by decide))⟩

/-- C4: for parsable version strings, compareVersions is reflexive
(zero on equal arguments) and antisymmetric up to sign, and a version
carrying a prerelease tag compares strictly lower than the same
major.minor.patch version without one; in particular
compare("1.2.3-beta", "1.2.3") is negative. -/
theorem c4_comparator_algebra (a b : String)
    (ha : parseVersion a ≠ none) (hb : parseVersion b ≠ none) :
    compareVersions a a = 0 ∧
    compareVersions a b = -compareVersions b a ∧
    (∀ pa pb : ParsedVersion, parseVersion a = some pa → parseVersion b = some pb →
      pa.major = pb.major → pa.minor = pb.minor → pa.patch = pb.patch →
      pa.prerelease.isSome → pb.prerelease = none → compareVersions a b < 0) ∧
    compareVersions "1.2.3-beta" "1.2.3" < 0 := by
  refine ⟨compareVersions_self a, compareVersions_antisymm a b, ?_, by decide⟩
  intro pa pb hpa hpb h1 h2 h3 h4 h5
  unfold compareVersions
  rw [hpa, hpb]
  obtain ⟨t, ht⟩ := Option.isSome_iff_exists.mp h4
  simp [h1, h2, h3, ht, h5]

theorem c4_witness :
    parseVersion "1.2.3-beta" ≠ none ∧ parseVersion "1.2.3" ≠ none ∧
    compareVersions "1.2.3-beta" "1.2.3-beta" = 0 ∧
    compareVersions "1.2.3-beta" "1.2.3" = -compareVersions "1.2.3" "1.2.3-beta" ∧
    compareVersions "1.2.3-beta" "1.2.3" < 0 :=
  ⟨by decide, by decide,
   (c4_comparator_algebra "1.2.3-beta" "1.2.3" (by decide) (by decide)).1,
   (c4_comparator_algebra "1.2.3-beta" "1.2.3" (by decide) (by decide)).2.1,
   (c4_comparator_algebra "1.2.3-beta" "1.2.3" (by decide) (by decide)).2.2.2⟩

/-- C10: parseVersion accepts four-component versions, reading the
fourth dot-separated component as the prerelease tag: every string
X.Y.Z.W with nonempty digit runs X, Y, Z and nonempty W parses to
major X, minor Y, patch Z and prerelease W, and consequently
"1.2.3.4" compares strictly below "1.2.3". -/
theorem c10_four_component (X Y Z W : List Char)
    (hX : X ≠ []) (hXd : ∀ c ∈ X, c.isDigit = true)
    (hY : Y ≠ []) (hYd : ∀ c ∈ Y, c.isDigit = true)
    (hZ : Z ≠ []) (hZd : ∀ c ∈ Z, c.isDigit = true)
    (hW : W ≠ []) :
    parseVersion (String.mk (X ++ '.' :: (Y ++ '.' :: (Z ++ '.' :: W)))) =
      some { major := digitsToNat X, minor := digitsToNat Y, patch := digitsToNat Z,
             prerelease := some (String.mk W),
             original := String.mk (X ++ '.' :: (Y ++ '.' :: (Z ++ '.' :: W))) } ∧
    compareVersions "1.2.3.4" "1.2.3" < 0 :=
  ⟨parseVersion_four_components X Y Z W hX hXd hY hYd hZ hZd hW, by decide⟩

theorem c10_witness :
    parseVersion (String.mk (['1'] ++ '.' :: (['2'] ++ '.' :: (['3'] ++ '.' :: ['4'])))) =
      some { major := 1, minor := 2, patch := 3, prerelease := some "4",
             original := "1.2.3.4" } ∧
    compareVersions "1.2.3.4" "1.2.3" < 0 := by
  have h := c10_four_component ['1'] ['2'] ['3'] ['4']
    (by decide) (by decide) (by decide) (by decide) (by decide) (by decide) (by decide)
  refine ⟨?_, h.2⟩
  rw [h.1]
  decide

/-- C2 counterexample: the claim that action equals upgrade if and
only if a suggested version was found (suggested_version non-null)
fails on the code. With the single fixed version being the empty
string and current version "1.0.0", the emitted suggestion carries the
non-null suggested_version "" while the falsy check
`if (suggestedVersion)` takes the review branch, so its action is
review, not upgrade. -/
theorem c2_counterexample :
    buildSuggestion entryEmptyFix ∈ (suggestFixes [entryEmptyFix]).suggestions ∧
    (buildSuggestion entryEmptyFix).suggested_version = some "" ∧
    (buildSuggestion entryEmptyFix).suggested_version ≠ none ∧
    (buildSuggestion entryEmptyFix).action = FixAction.review ∧
    (buildSuggestion entryEmptyFix).action ≠ FixAction.upgrade := by
  refine ⟨by decide, by decide, by decide, by decide, by decide⟩

/-- C2 as amended: in every suggestFixes output, a suggestion has
action upgrade exactly when a truthy suggested version was found (one
that is non-null and nonempty, matching the JS falsiness of the empty
string at the `if (suggestedVersion)` check) and action review in
every other case; the investigate value never occurs in the output. -/
theorem c2_action_iff (input : List VulnResult) (s : FixSuggestion)
    (hs : s ∈ (suggestFixes input).suggestions) :
    (s.action = FixAction.upgrade ↔
      (s.suggested_version ≠ none ∧ s.suggested_version ≠ some "")) ∧
    (s.action = FixAction.review ↔
      (s.suggested_version = none ∨ s.suggested_version = some "")) ∧
    s.action ≠ FixAction.investigate := by
  obtain ⟨r, _, _, rfl⟩ := (mem_suggestions_iff input s).mp hs
  rw [buildSuggestion_action, buildSuggestion_suggested_version]
  cases h : findMinimumSafeVersion (currentVersionOf r.dependency)
      (uniqueFixedOf r.vulnerabilities) with
  | none => simp
  | some sv =>
    by_cases hsv : sv = "" <;> simp [hsv]

theorem c2_witness :
    buildSuggestion entryW ∈ (suggestFixes [entryW]).suggestions ∧
    ((buildSuggestion entryW).action = FixAction.upgrade ↔
      ((buildSuggestion entryW).suggested_version ≠ none ∧
        (buildSuggestion entryW).suggested_version ≠ some "")) ∧
    ((buildSuggestion entryW).action = FixAction.review ↔
      ((buildSuggestion entryW).suggested_version = none ∨
        (buildSuggestion entryW).suggested_version = some "")) ∧
    (buildSuggestion entryW).action ≠ FixAction.investigate :=
  ⟨by decide, c2_action_iff [entryW] (buildSuggestion entryW) (by decide)⟩

/-- C9: for every accepted input, the by_priority summary (a record
with exactly the four keys critical, high, medium and low, each a
natural-number count) sums to summary.total, and summary.total equals
the length of the returned suggestions list. -/
theorem c9_summary_invariant (input : List VulnResult) :
    (suggestFixes input).summary.total = (suggestFixes input).suggestions.length ∧
    (suggestFixes input).summary.by_priority.critical +
      (suggestFixes input).summary.by_priority.high +
      (suggestFixes input).summary.by_priority.medium +
      (suggestFixes input).summary.by_priority.low =
        (suggestFixes input).summary.total := by
  refine ⟨rfl, ?_⟩
  rw [suggestFixes_total_eq, suggestFixes_byPriority_eq, suggestFixes_suggestions_eq]
  have hsum := sumBP_foldl
    ((input.filter (fun r => !r.vulnerabilities.isEmpty)).map buildSuggestion) ⟨0, 0, 0, 0⟩
  have hlen := (sortStable_perm
    (fun a b => decide (priorityOrder a.priority < priorityOrder b.priority))
    ((input.filter (fun r => !r.vulnerabilities.isEmpty)).map buildSuggestion)).length_eq
  simp only [sumBP] at hsum
  rw [hlen]
  omega

theorem priorityOrder_eq_iff (q p : Priority) :
    decide (priorityOrder q = priorityOrder p) = decide (q = p) := by
  cases q <;> cases p <;> rfl

/-- C5: the suggestions list is ordered by priority rank only
(critical, high, medium, low) and the sort is stable: for each
priority, the suggestions of that priority appear in the same order as
in the pre-sort emission (which follows input order); the concrete
input with priorities low, critical, medium comes out as critical,
medium, low. -/
theorem c5_priority_sort (input : List VulnResult) :
    ((suggestFixes input).suggestions).Pairwise
      (fun a b => priorityOrder a.priority ≤ priorityOrder b.priority) ∧
    (∀ p : Priority,
      ((suggestFixes input).suggestions).filter (fun s => decide (s.priority = p)) =
        ((input.filter (fun r => !r.vulnerabilities.isEmpty)).map buildSuggestion).filter
          (fun s => decide (s.priority = p))) ∧
    ((suggestFixes exC5).suggestions).map (fun s => s.priority) =
      [Priority.critical, Priority.medium, Priority.low] := by
  refine ⟨?_, ?_, by decide⟩
  · rw [suggestFixes_suggestions_eq]
    have hpw := sortStable_pairwise
      (fun a b => decide (priorityOrder a.priority < priorityOrder b.priority))
      (fun _ => True) ?_ ?_
      ((input.filter (fun r => !r.vulnerabilities.isEmpty)).map buildSuggestion)
      (fun _ _ => trivial)
    · refine hpw.imp ?_
      intro a b hab
      simp at hab
      omega
    · intro a b _ _ hab
      simp at hab ⊢
      omega
    · intro a b c _ _ _ hab hbc
      simp at hab hbc ⊢
      omega
  · intro p
    rw [suggestFixes_suggestions_eq]
    have hkey := sortStable_filter_key (fun s : FixSuggestion => priorityOrder s.priority)
      (priorityOrder p)
      ((input.filter (fun r => !r.vulnerabilities.isEmpty)).map buildSuggestion)
    have hcongr : ∀ l : List FixSuggestion,
        l.filter (fun s => decide (priorityOrder s.priority = priorityOrder p)) =
          l.filter (fun s => decide (s.priority = p)) := by
      intro l
      apply List.filter_congr
      intro s _
      exact priorityOrder_eq_iff s.priority p
    rw [← hcongr, ← hcongr]
    exact hkey

/-- C1: every input entry with a nonempty vulnerability list
contributes the suggestion built from it to the suggest_fixes output,
and its suggested version is computed over the deduplicated union S of
the entry fixed versions as follows (stated under the presupposition
of the claim that compareVersions orders S, i.e. is transitive on it):
the suggestion is absent exactly when S is empty; when the current
version is unparsable it is a minimum of S; when the current version
is parsable and some element of S is strictly greater than it, it is a
least such element; and when no element is strictly greater it is a
maximum of S. -/
theorem c1_suggested_version (input : List VulnResult) (entry : VulnResult)
    (hin : entry ∈ input) (hvuln : entry.vulnerabilities ≠ [])
    (htr : ∀ x ∈ uniqueFixedOf entry.vulnerabilities,
      ∀ y ∈ uniqueFixedOf entry.vulnerabilities,
      ∀ z ∈ uniqueFixedOf entry.vulnerabilities,
      versionLtB x y = true → versionLtB y z = true → versionLtB x z = true) :
    buildSuggestion entry ∈ (suggestFixes input).suggestions ∧
    ((buildSuggestion entry).suggested_version = none ↔
      uniqueFixedOf entry.vulnerabilities = []) ∧
    (∀ m, (buildSuggestion entry).suggested_version = some m →
      m ∈ entry.vulnerabilities.flatMap (fun v => v.fixed_versions) ∧
      (parseVersion (currentVersionOf entry.dependency) = none →
        ∀ x ∈ uniqueFixedOf entry.vulnerabilities, compareVersions m x ≤ 0) ∧
      (parseVersion (currentVersionOf entry.dependency) ≠ none →
        (∃ x ∈ uniqueFixedOf entry.vulnerabilities,
          compareVersions x (currentVersionOf entry.dependency) > 0) →
        compareVersions m (currentVersionOf entry.dependency) > 0 ∧
        ∀ x ∈ uniqueFixedOf entry.vulnerabilities,
          compareVersions x (currentVersionOf entry.dependency) > 0 →
            compareVersions m x ≤ 0) ∧
      (parseVersion (currentVersionOf entry.dependency) ≠ none →
        (∀ x ∈ uniqueFixedOf entry.vulnerabilities,
          ¬ compareVersions x (currentVersionOf entry.dependency) > 0) →
        ∀ x ∈ uniqueFixedOf entry.vulnerabilities, compareVersions x m ≤ 0)) := by
  obtain ⟨hnone, hsome⟩ :=
    fmsv_spec (currentVersionOf entry.dependency) (uniqueFixedOf entry.vulnerabilities) htr
  refine ⟨(mem_suggestions_iff input (buildSuggestion entry)).mpr ⟨entry, hin, hvuln, rfl⟩,
    ?_, ?_⟩
  · rw [buildSuggestion_suggested_version]
    exact hnone
  · intro m hm
    rw [buildSuggestion_suggested_version] at hm
    obtain ⟨hmem, hunp, hgt, hmax⟩ := hsome m hm
    refine ⟨?_, hunp, hgt, hmax⟩
    rw [uniqueFixedOf] at hmem
    exact (mem_dedupFirst _ m).mp hmem

theorem c1_witness :
    entryW ∈ [entryW] ∧ entryW.vulnerabilities ≠ [] ∧
    buildSuggestion entryW ∈ (suggestFixes [entryW]).suggestions ∧
    ((buildSuggestion entryW).suggested_version = none ↔
      uniqueFixedOf entryW.vulnerabilities = []) ∧
    (buildSuggestion entryW).suggested_version = some "2.0.0" := by
  have h := c1_suggested_version [entryW] entryW (by decide) (by decide) (by decide)
  exact ⟨by decide, by decide, h.1, h.2.1, by decide⟩

/-- C6: for the package-lock dialect, the v1 walk is bypassed whenever
the v2 packages-map extraction is nonempty; the v2 extraction skips
the empty root key and strips the node_modules/ path prefix (stated
for slash-free suffixes, where the inner global replacement cannot
fire); and through parseDependencies with a JSON decoder that decodes
the example manifest text to its tree, that text yields exactly the
one lodash dependency. -/
theorem c6_package_lock :
    (∀ data : PackageLockData, packagesExtract data.packages ≠ [] →
      parsePackageLock data = packagesExtract data.packages) ∧
    (∀ (pkg : PLPkg) (rest : List (String × PLPkg)),
      packagesExtract (some (("", pkg) :: rest)) = packagesExtract (some rest)) ∧
    (∀ n : String, (∀ c ∈ n.data, c ≠ '/') →
      packagePathName ("node_modules/" ++ n) = n) ∧
    (∀ d : Decoders, d.packageLock exampleLockText = Except.ok exampleLockData →
      parseDependencies d ⟨exampleLockText, "package-lock"⟩ =
        PDResponse.ok [⟨"npm", "lodash", "4.17.21"⟩] 1 []) := by
  refine ⟨parsePackageLock_v2_priority, packagesExtract_skip_root,
    packagePathName_no_slash, ?_⟩
  intro d hd
  have htrim : ¬ trimString exampleLockText = "" := by decide
  have hp : parserFor d "package-lock" =
      some (fun t => (d.packageLock t).map parsePackageLock) := rfl
  simp only [parseDependencies, if_neg htrim, hp, hd, Except.map]
  decide

theorem c6_witness :
    decodersW.packageLock exampleLockText = Except.ok exampleLockData ∧
    parseDependencies decodersW ⟨exampleLockText, "package-lock"⟩ =
      PDResponse.ok [⟨"npm", "lodash", "4.17.21"⟩] 1 [] := by
  have hd : decodersW.packageLock exampleLockText = Except.ok exampleLockData := by
    show (if exampleLockText = exampleLockText then Except.ok exampleLockData
          else Except.error "Unexpected token") = Except.ok exampleLockData
    rw [if_pos rfl]
  exact ⟨hd, (c6_package_lock).2.2.2 decodersW hd⟩

/-- C7: a yarn-lock declaration block never followed by a version line
contributes nothing (in particular, a text without any version line
yields no dependencies, and in the concrete mid-file example the first
block is discarded); the final block at end of input is flushed when
it has a version line; and the output is deduplicated by the
name-at-version composite key. -/
theorem c7_yarn_lock :
    (∀ text : String, (∀ l ∈ splitOnChar '\n' text.data, yarnVersionMatch l = none) →
      parseYarnLock text = []) ∧
    (∀ text : String, (parseYarnLock text).Pairwise (fun d e => yarnKey d ≠ yarnKey e)) ∧
    parseYarnLock "a@^1:\nb@^1:\n  version \"1.0.0\"\n" = [⟨"npm", "b", "1.0.0"⟩] ∧
    parseYarnLock "a@^1:\n  version \"1.0.0\"" = [⟨"npm", "a", "1.0.0"⟩] ∧
    parseYarnLock "a@^1, a@~1:\n  version \"1.0.0\"" = [⟨"npm", "a", "1.0.0"⟩] :=
  ⟨parseYarnLock_no_version, parseYarnLock_nodup, by decide, by decide, by decide⟩

theorem c7_witness :
    (∀ l ∈ splitOnChar '\n' "foo@^1.0.0:\nbar@^2.0.0:".data, yarnVersionMatch l = none) ∧
    parseYarnLock "foo@^1.0.0:\nbar@^2.0.0:" = [] :=
  ⟨by decide, (c7_yarn_lock).1 "foo@^1.0.0:\nbar@^2.0.0:" (by decide)⟩

/-- C8: parseDependencies rejects empty manifest text and unsupported
dialect tags with INVALID_INPUT independently of every decoder (so no
dialect parser runs); a decoder exception on a structured dialect is
returned as PARSE_ERROR with the dialect name in the details; and the
operation is total, always returning an ok or err envelope. -/
theorem c8_parse_dependencies_errors :
    (∀ (d : Decoders) (input : PDInput), trimString input.text = "" →
      parseDependencies d input = PDResponse.err
        { code := ErrCode.INVALID_INPUT
          message := "Manifest text cannot be empty"
          details := { manifest_type := some input.manifest_type, supported_types := none } }) ∧
    (∀ (d : Decoders) (input : PDInput), input.manifest_type ∉ supportedManifestTypes →
      parseDependencies d input = PDResponse.err
        { code := ErrCode.INVALID_INPUT
          message := "Manifest text cannot be empty"
          details := { manifest_type := some input.manifest_type, supported_types := none } } ∨
      parseDependencies d input = PDResponse.err
        { code := ErrCode.INVALID_INPUT
          message := "Unsupported manifest type: " ++ input.manifest_type
          details := { manifest_type := none,
                       supported_types := some supportedManifestTypes } }) ∧
    (∀ (d : Decoders) (input : PDInput) (msg : String),
      ¬ trimString input.text = "" → decoderRaises d input msg →
      parseDependencies d input = PDResponse.err
        { code := ErrCode.PARSE_ERROR
          message := "Failed to parse " ++ input.manifest_type ++ ": " ++ msg
          details := { manifest_type := some input.manifest_type, supported_types := none } }) ∧
    (∀ (d : Decoders) (input : PDInput),
      (∃ dl c w, parseDependencies d input = PDResponse.ok dl c w) ∨
      (∃ e, parseDependencies d input = PDResponse.err e)) := by
  refine ⟨?_, ?_, ?_, ?_⟩
  · intro d input h
    simp [parseDependencies, h]
  · intro d input h
    by_cases ht : trimString input.text = ""
    · left
      simp [parseDependencies, ht]
    · right
      simp only [supportedManifestTypes, List.mem_cons, List.not_mem_nil, or_false,
        not_or] at h
      obtain ⟨h1, h2, h3, h4, h5, h6, h7⟩ := h
      simp [parseDependencies, ht, parserFor, h1, h2, h3, h4, h5, h6, h7]
  · intro d input msg ht hraise
    rcases hraise with ⟨hmt, herr⟩ | ⟨hmt, herr⟩ | ⟨hmt, herr⟩ | ⟨hmt, herr⟩ <;>
      simp [parseDependencies, ht, parserFor, hmt, herr, Except.map]
  · intro d input
    cases hq : parseDependencies d input with
    | ok dl c w => exact Or.inl ⟨dl, c, w, rfl⟩
    | err e => exact Or.inr ⟨e, rfl⟩

theorem c8_witness :
    ¬ trimString "x" = "" ∧
    decoderRaises decodersErr ⟨"x", "package-lock"⟩ "boom" ∧
    parseDependencies decodersErr ⟨"x", "package-lock"⟩ = PDResponse.err
      { code := ErrCode.PARSE_ERROR
        message := "Failed to parse " ++ "package-lock" ++ ": " ++ "boom"
        details := { manifest_type := some "package-lock", supported_types := none } } :=
  ⟨by decide, Or.inl ⟨rfl, rfl⟩,
   (c8_parse_dependencies_errors).2.2.1 decodersErr ⟨"x", "package-lock"⟩ "boom"
     (by decide) (Or.inl ⟨rfl, rfl⟩)⟩
